import Mathlib

/-!
Digit-vector addition, the string codec and the Fibonacci driver.

A shallow embedding of

* `src/Means/High-precision_Adder/High-precision_Adder.cpp` (`add`),
* `src/00_algo/binary_add/function.cpp` (`binary_add`, `str_to_vec`),
* `src/NOTES/00_algo/binary_add/main.cpp` (the output loop of `main`),
* `src/Means/High-precision_Adder/Fibonacci.cpp` (the body of the `while` loop of `main`),
* `src/00_algo/Kadane_algorithm/Find_Max_Sum/functions.cpp` (`func`),

followed by the properties of the specification that concern them.

Conventions of the embedding.

* `std::vector<int>` is `List Int`; `push_back` appends at the end. Lengths and
  positions are natural numbers (the `int` copies `len1`, `len2`, `len` of a
  `size()` are exact for every vector that fits in memory).
* An `int` is an `Int`; an addition that can leave the 32-bit range is reduced by
  `wrap32` (two's complement). C++ `/` and `%` truncate towards zero: `Int.tdiv`,
  `Int.tmod`.
* `std::string` is `String`, read through its list of characters; one `char` is one
  `Char` (exact for ASCII text, which is all the properties below speak about) and
  `c - '0'` is the character code minus 48.
* `std::cout` is a `String` accumulator; `std::cout << x` for an `int` appends the
  decimal numeral of `x`, for which `toString` on `Int` is used.
* A `for` loop is a recursive function over a fuel argument that carries the loop
  variables and tests the loop condition at each step; the functions that run a loop
  supply the fuel, and the fuel lemmas below show that any larger fuel gives the
  same result (the loop always leaves through its condition). A loop that counts
  down to zero recurses on the counter itself.
-/

namespace DigitVector

/-! ## The embedded program -/

/-- Reduction of an integer to the range of a 32-bit two's complement `int`. -/
def wrap32 (x : Int) : Int := (x + 2147483648) % 4294967296 - 2147483648

/-- The `for` loop of `add` (lines 9-17): `i` is the loop variable, `t` the running
carry and `res` the result built so far; the loop returns `res` and `t` at exit. -/
def add_loop (s1 s2 : List Int) : Nat → Nat → Int → List Int → List Int × Int
  | 0, _, t, res => (res, t)
  | fuel + 1, i, t, res =>
    if i < s1.length ∨ i < s2.length then
      let t1 := if i < s1.length then wrap32 (t + s1.getD i 0) else t
      let t2 := if i < s2.length then wrap32 (t1 + s2.getD i 0) else t1
      add_loop s1 s2 fuel (i + 1) (t2.tdiv 10) (res ++ [t2.tmod 10])
    else (res, t)

/-- The function `add` of `High-precision_Adder.cpp`: the loop, then `if(t) res.push_back(t)`. -/
def add (s1 s2 : List Int) : List Int :=
  let r := add_loop s1 s2 (max s1.length s2.length) 0 0 []
  if r.2 ≠ 0 then r.1 ++ [r.2] else r.1

/-- The `for` loop of `binary_add` (lines 13-21). -/
def binary_add_loop (v1 v2 : List Int) : Nat → Nat → Int → List Int → List Int × Int
  | 0, _, t, res => (res, t)
  | fuel + 1, i, t, res =>
    if i < v1.length ∨ i < v2.length then
      let t1 := if i < v1.length then wrap32 (t + v1.getD i 0) else t
      let t2 := if i < v2.length then wrap32 (t1 + v2.getD i 0) else t1
      binary_add_loop v1 v2 fuel (i + 1) (t2.tdiv 2) (res ++ [t2.tmod 2])
    else (res, t)

/-- The function `binary_add` of `binary_add/function.cpp`. -/
def binary_add (v1 v2 : List Int) : List Int :=
  let r := binary_add_loop v1 v2 (max v1.length v2.length) 0 0 []
  if r.2 ≠ 0 then r.1 ++ [r.2] else r.1

/-- The loop of `str_to_vec` (lines 34-38). The counter `i` runs from `strlen - 1`
down to `0`; the first argument is `i + 1`, so `0` is the exit `i = -1`. -/
def str_to_vec_loop (s : List Char) : Nat → List Int → List Int
  | 0, vec => vec
  | i + 1, vec => str_to_vec_loop s i (vec ++ [((s.getD i '0').toNat : Int) - 48])

/-- The function `str_to_vec` of `binary_add/function.cpp`. -/
def str_to_vec (s : String) : List Int :=
  str_to_vec_loop s.data s.length []

/-- The output loop of `binary_add/main.cpp` (lines 17-20): `std::cout << res[i]` for
`i` from `len - 1` down to `0`; the first argument is `i + 1`. -/
def output_loop (res : List Int) : Nat → String → String
  | 0, out => out
  | i + 1, out => output_loop res i (out ++ toString (res.getD i 0))

/-- The text that the output loop of `binary_add/main.cpp` writes for the vector `res`. -/
def render (res : List Int) : String :=
  output_loop res res.length ""

/-- The function `main` of `binary_add/main.cpp` on the two words read from the input:
the prompt, the digits of the sum, and the closing `std::endl`. -/
def binary_main (s1 s2 : String) : String :=
  let out := "输入两个二进制字符串：" ++ "\n"
  let v1 := str_to_vec s1
  let v2 := str_to_vec s2
  let res := binary_add v1 v2
  let out := output_loop res res.length out
  out ++ "\n"

/-- The three vectors of the Fibonacci driver. -/
structure FibState where
  pre_1 : List Int
  pre_2 : List Int
  current : List Int
deriving DecidableEq

/-- The `for` loop of the Fibonacci driver (lines 18-23) for the input `n`; `i` is the
loop variable (`i + 1` cannot overflow, since `i < n - 1`). -/
def fib_loop (n : Int) : Nat → Int → FibState → FibState
  | 0, _, st => st
  | fuel + 1, i, st =>
    if i < wrap32 (n - 1) then
      let current := add st.pre_1 st.pre_2
      fib_loop n fuel (i + 1) { pre_1 := current, pre_2 := st.pre_1, current := current }
    else st

/-- The state of the Fibonacci driver after its `for` loop, for the input `n`. -/
def fib_state (n : Int) : FibState :=
  fib_loop n (wrap32 (n - 1)).toNat 0 { pre_1 := [1], pre_2 := [0], current := [] }

/-- The output loop of the Fibonacci driver (lines 26-29): `current[i]` followed by a
newline when `i == 0`, for `i` from `len - 1` down to `0`; the first argument is `i + 1`. -/
def fib_output_loop (current : List Int) : Nat → String → String
  | 0, out => out
  | i + 1, out =>
    fib_output_loop current i (out ++ toString (current.getD i 0) ++ (if i = 0 then "\n" else ""))

/-- The digits that the Fibonacci driver writes for the vector `current`. -/
def fib_render (current : List Int) : String :=
  fib_output_loop current current.length ""

/-- The body of the `while` loop of the Fibonacci driver for one input `n`
(lines 11-29): everything it writes to `std::cout`. -/
def fib_main_body (n : Int) : String :=
  let out := ""
  let out := if n = 0 then out ++ "第0项为: 0" ++ "\n" else out
  let out := if n = 1 then out ++ "第1项为: 1" ++ "\n" else out
  let current := (fib_state n).current
  let out := out ++ "第" ++ toString n ++ "项是: "
  fib_output_loop current current.length out

/-- The range-based loop of func (lines 26-33) over the elements not yet visited, with the
variables max_sum and current_sum. -/
def func_loop : List Int → Int → Int → Int
  | [], max_sum, _ => max_sum
  | x :: rest, max_sum, current_sum =>
    let current_sum := if current_sum < 0 then x else wrap32 (current_sum + x)
    func_loop rest (max max_sum current_sum) current_sum

/-- The function func of Find_Max_Sum/functions.cpp. -/
def func (nums : List Int) : Int :=
  if nums.isEmpty then 0
  else func_loop nums (nums.getD 0 0) 0

/-! ## Notions of the specification -/

/-- The positional value of a digit vector stored least-significant digit first:
the sum of `l[i] * R ^ i`. -/
def positional (R : Int) (l : List Int) : Int :=
  ((List.range l.length).map fun i => l.getD i 0 * R ^ i).sum

/-- Every element of the vector is a digit of radix `R`. -/
def InRadix (R : Int) (l : List Int) : Prop :=
  ∀ x ∈ l, 0 ≤ x ∧ x < R

instance (R : Int) (l : List Int) : Decidable (InRadix R l) := by
  unfold InRadix; infer_instance

/-- The Digit Sequence invariant of the data model: the vector is not empty, every
element is a digit of radix `R`, and the last (most significant) element is not zero
unless the vector is exactly `[0]`. -/
def DigitSeq (R : Int) (l : List Int) : Prop :=
  l ≠ [] ∧ InRadix R l ∧ (l.getLast? ≠ some 0 ∨ l = [0])

instance (R : Int) (l : List Int) : Decidable (DigitSeq R l) := by
  unfold DigitSeq; infer_instance

/-- The Fibonacci numbers: `Fib 0 = 0`, `Fib 1 = 1`, `Fib k = Fib (k-1) + Fib (k-2)`. -/
def Fib : Nat → Nat
  | 0 => 0
  | 1 => 1
  | k + 2 => Fib (k + 1) + Fib k

/-- The decimal digit characters, each with its numeric value. -/
def digitTable : List (Char × Int) :=
  [('0', 0), ('1', 1), ('2', 2), ('3', 3), ('4', 4), ('5', 5), ('6', 6), ('7', 7), ('8', 8),
    ('9', 9)]

/-- The numeric value of a decimal digit character, and none for any other character. -/
def digitValue (c : Char) : Option Int :=
  digitTable.lookup c

/-- The characters 0 to 9. -/
def decimalDigits : List Char :=
  digitTable.map Prod.fst

/-- The sum of the contiguous subarray nums[i..j], both ends included. -/
def segSum (nums : List Int) (i j : Nat) : Int :=
  ((nums.drop i).take (j + 1 - i)).sum

/-! ## Auxiliary definitions for the proofs -/

/-- The value that str_to_vec stores for a character: its code minus the code of 0. -/
def charValue (c : Char) : Int := (c.toNat : Int) - 48

/-- The character that the output stream writes for a one-digit integer. -/
def digitChar10 (d : Int) : Char := Nat.digitChar d.toNat

/-- The loop of `add` and of `binary_add` with the radix as a parameter. -/
def radix_loop (R : Int) (s1 s2 : List Int) : Nat → Nat → Int → List Int → List Int × Int
  | 0, _, t, res => (res, t)
  | fuel + 1, i, t, res =>
    if i < s1.length ∨ i < s2.length then
      let t1 := if i < s1.length then wrap32 (t + s1.getD i 0) else t
      let t2 := if i < s2.length then wrap32 (t1 + s2.getD i 0) else t1
      radix_loop R s1 s2 fuel (i + 1) (t2.tdiv R) (res ++ [t2.tmod R])
    else (res, t)

/-- The closing step of both adders: `if(t) res.push_back(t)`. -/
def finish (r : List Int × Int) : List Int :=
  if r.2 ≠ 0 then r.1 ++ [r.2] else r.1

/-- Ripple-carry addition by recursion on the two digit lists, with incoming carry `t`. -/
def ripple (R : Int) : Int → List Int → List Int → List Int
  | t, [], [] => if t ≠ 0 then [t] else []
  | t, a :: as, [] => (t + a) % R :: ripple R ((t + a) / R) as []
  | t, [], b :: bs => (t + b) % R :: ripple R ((t + b) / R) [] bs
  | t, a :: as, b :: bs => (t + a + b) % R :: ripple R ((t + a + b) / R) as bs

/-- The invariant of the Fibonacci loop before iteration number j: the two vectors
satisfy the Digit Sequence invariant and hold the Fibonacci numbers of index j + 1 and j,
and current is a copy of pre_1 once an iteration has run. -/
def FibInv (j : Nat) (st : FibState) : Prop :=
  DigitSeq 10 st.pre_1 ∧ DigitSeq 10 st.pre_2 ∧
    positional 10 st.pre_1 = (Fib (j + 1) : Int) ∧ positional 10 st.pre_2 = (Fib j : Int) ∧
    (1 ≤ j → st.current = st.pre_1)

/-- The positional value by recursion on the list. -/
def horner (R : Int) : List Int → Int
  | [] => 0
  | d :: ds => d + R * horner R ds

/-- The loop of add with every read of a vector checked: a read at a position outside
the vector is the error none. It is the same loop as add_loop otherwise. -/
def add_loop_checked (s1 s2 : List Int) : Nat → Nat → Int → List Int → Option (List Int × Int)
  | 0, _, t, res => some (res, t)
  | fuel + 1, i, t, res =>
    if i < s1.length ∨ i < s2.length then
      (if i < s1.length then (s1[i]?).map fun x => wrap32 (t + x) else some t).bind fun t1 =>
      (if i < s2.length then (s2[i]?).map fun x => wrap32 (t1 + x) else some t1).bind fun t2 =>
      add_loop_checked s1 s2 fuel (i + 1) (t2.tdiv 10) (res ++ [t2.tmod 10])
    else some (res, t)

/-- The function add with every read of a vector checked. -/
def add_checked (s1 s2 : List Int) : Option (List Int) :=
  (add_loop_checked s1 s2 (max s1.length s2.length) 0 0 []).map fun r =>
    if r.2 ≠ 0 then r.1 ++ [r.2] else r.1

/-- The value lies in the range of a 32-bit int. -/
def fits32 (x : Int) : Bool :=
  decide (-2147483648 ≤ x) && decide (x < 2147483648)

/-- No addition in the loop of add overflows: the run is followed with exact integers and
every value assigned to t by a statement t += s[i] lies in the range of int. -/
def add_fits (s1 s2 : List Int) : Nat → Nat → Int → Bool
  | 0, _, _ => true
  | fuel + 1, i, t =>
    if i < s1.length ∨ i < s2.length then
      let t1 := if i < s1.length then t + s1.getD i 0 else t
      let t2 := if i < s2.length then t1 + s2.getD i 0 else t1
      fits32 t1 && fits32 t2 && add_fits s1 s2 fuel (i + 1) (t2.tdiv 10)
    else true

/-- No intermediate sum of func overflows: the run over the elements not yet visited is
followed with exact integers, starting from the value c of current_sum, and every sum
current_sum + x that the loop computes lies in the range of int. -/
def func_fits : List Int → Int → Bool
  | [], _ => true
  | x :: rest, c =>
    (if c < 0 then true else fits32 (c + x)) && func_fits rest (if c < 0 then x else c + x)

/-- The invariant of the loop of func after the element of index p: current_sum is the
greatest sum of a subarray that ends at p, and max_sum the greatest sum of a subarray
that ends at p or before. -/
def KadaneInv (nums : List Int) (p : Nat) (m c : Int) : Prop :=
  (∃ i, i ≤ p ∧ c = segSum nums i p) ∧ (∀ i, i ≤ p → segSum nums i p ≤ c) ∧
    (∃ i j, i ≤ j ∧ j ≤ p ∧ m = segSum nums i j) ∧
    (∀ i j, i ≤ j → j ≤ p → segSum nums i j ≤ m)

/-! ## The loops and the recursive adder -/

theorem wrap32_of_range (x : Int) (h1 : -2147483648 ≤ x) (h2 : x < 2147483648) :
    wrap32 x = x := by
  unfold wrap32; omega

theorem add_loop_eq_radix_loop (s1 s2 : List Int) (fuel i : Nat) (t : Int) (res : List Int) :
    add_loop s1 s2 fuel i t res = radix_loop 10 s1 s2 fuel i t res := by
  induction fuel generalizing i t res with
  | zero => rfl
  | succ k ih => simp only [add_loop, radix_loop, ih]

theorem binary_add_loop_eq_radix_loop (v1 v2 : List Int) (fuel i : Nat) (t : Int)
    (res : List Int) :
    binary_add_loop v1 v2 fuel i t res = radix_loop 2 v1 v2 fuel i t res := by
  induction fuel generalizing i t res with
  | zero => rfl
  | succ k ih => simp only [binary_add_loop, radix_loop, ih]

theorem add_eq_finish (s1 s2 : List Int) :
    add s1 s2 = finish (radix_loop 10 s1 s2 (max s1.length s2.length) 0 0 []) := by
  simp only [add, finish, add_loop_eq_radix_loop]

theorem binary_add_eq_finish (v1 v2 : List Int) :
    binary_add v1 v2 = finish (radix_loop 2 v1 v2 (max v1.length v2.length) 0 0 []) := by
  simp only [binary_add, finish, binary_add_loop_eq_radix_loop]

theorem getD_of_lt (l : List Int) (i : Nat) (h : i < l.length) : l.getD i 0 = l[i] :=
  List.getD_eq_getElem l 0 h

theorem InRadix_getElem {R : Int} {l : List Int} (hl : InRadix R l) (i : Nat)
    (h : i < l.length) : 0 ≤ l[i] ∧ l[i] < R :=
  hl _ (List.getElem_mem h)

theorem InRadix_cons {R : Int} {a : Int} {l : List Int} :
    InRadix R (a :: l) ↔ (0 ≤ a ∧ a < R) ∧ InRadix R l := by
  simp [InRadix]

theorem InRadix_nil (R : Int) : InRadix R [] := by
  simp [InRadix]

theorem InRadix_mono {R S : Int} (h : R ≤ S) {l : List Int} (hl : InRadix R l) :
    InRadix S l :=
  fun x hx => ⟨(hl x hx).1, lt_of_lt_of_le (hl x hx).2 h⟩

/-- With digits of radix 2 or 10 and a carry of 0 or 1 the loop followed by the closing
step is the recursive adder on the parts of the inputs not yet read, for every fuel that
covers the remaining positions. -/
theorem radix_loop_ripple (R : Int) (hR : R = 2 ∨ R = 10) (s1 s2 : List Int)
    (h1 : InRadix R s1) (h2 : InRadix R s2) (fuel i : Nat) (t : Int) (res : List Int)
    (hf : max s1.length s2.length ≤ i + fuel) (ht0 : 0 ≤ t) (ht1 : t ≤ 1) :
    finish (radix_loop R s1 s2 fuel i t res) = res ++ ripple R t (s1.drop i) (s2.drop i) := by
  induction fuel generalizing i t res with
  | zero =>
    have e1 : s1.drop i = [] := List.drop_eq_nil_of_le (by omega)
    have e2 : s2.drop i = [] := List.drop_eq_nil_of_le (by omega)
    rw [e1, e2]
    by_cases h : t = 0 <;> simp [radix_loop, finish, ripple, h]
  | succ k ih =>
    by_cases c1 : i < s1.length <;> by_cases c2 : i < s2.length
    · have b1 := InRadix_getElem h1 i c1
      have b2 := InRadix_getElem h2 i c2
      have w1 : wrap32 (t + s1[i]) = t + s1[i] := by
        apply wrap32_of_range <;> rcases hR with rfl | rfl <;> omega
      have w2 : wrap32 (t + s1[i] + s2[i]) = t + s1[i] + s2[i] := by
        apply wrap32_of_range <;> rcases hR with rfl | rfl <;> omega
      have hR0 : (0 : Int) ≤ R := by rcases hR with rfl | rfl <;> omega
      have hs : 0 ≤ t + s1[i] + s2[i] := by omega
      rw [List.drop_eq_getElem_cons c1, List.drop_eq_getElem_cons c2]
      simp only [radix_loop, c1, c2, true_or, if_true, getD_of_lt, w1, w2, ripple,
        Int.tdiv_eq_ediv hs hR0, Int.tmod_eq_emod hs hR0]
      rw [ih (i + 1) _ _ (by omega) (by rcases hR with rfl | rfl <;> omega)
        (by rcases hR with rfl | rfl <;> omega)]
      simp
    · have b1 := InRadix_getElem h1 i c1
      have w1 : wrap32 (t + s1[i]) = t + s1[i] := by
        apply wrap32_of_range <;> rcases hR with rfl | rfl <;> omega
      have hR0 : (0 : Int) ≤ R := by rcases hR with rfl | rfl <;> omega
      have hs : 0 ≤ t + s1[i] := by omega
      have e2 : s2.drop i = [] := List.drop_eq_nil_of_le (by omega)
      have e2' : s2.drop (i + 1) = [] := List.drop_eq_nil_of_le (by omega)
      rw [List.drop_eq_getElem_cons c1, e2]
      simp only [radix_loop, c1, c2, true_or, if_true, if_false, getD_of_lt, w1, ripple,
        Int.tdiv_eq_ediv hs hR0, Int.tmod_eq_emod hs hR0]
      rw [ih (i + 1) _ _ (by omega) (by rcases hR with rfl | rfl <;> omega)
        (by rcases hR with rfl | rfl <;> omega), e2']
      simp
    · have b2 := InRadix_getElem h2 i c2
      have w2 : wrap32 (t + s2[i]) = t + s2[i] := by
        apply wrap32_of_range <;> rcases hR with rfl | rfl <;> omega
      have hR0 : (0 : Int) ≤ R := by rcases hR with rfl | rfl <;> omega
      have hs : 0 ≤ t + s2[i] := by omega
      have e1 : s1.drop i = [] := List.drop_eq_nil_of_le (by omega)
      have e1' : s1.drop (i + 1) = [] := List.drop_eq_nil_of_le (by omega)
      rw [List.drop_eq_getElem_cons c2, e1]
      simp only [radix_loop, c1, c2, or_true, if_true, if_false, getD_of_lt, w2, ripple,
        Int.tdiv_eq_ediv hs hR0, Int.tmod_eq_emod hs hR0]
      rw [ih (i + 1) _ _ (by omega) (by rcases hR with rfl | rfl <;> omega)
        (by rcases hR with rfl | rfl <;> omega), e1']
      simp
    · have e1 : s1.drop i = [] := List.drop_eq_nil_of_le (by omega)
      have e2 : s2.drop i = [] := List.drop_eq_nil_of_le (by omega)
      rw [e1, e2]
      by_cases h : t = 0 <;> simp [radix_loop, finish, ripple, h, c1, c2]

/-- On digit vectors of radix 10 the function add is the recursive adder. -/
theorem add_eq_ripple (s1 s2 : List Int) (h1 : InRadix 10 s1) (h2 : InRadix 10 s2) :
    add s1 s2 = ripple 10 0 s1 s2 := by
  rw [add_eq_finish, radix_loop_ripple 10 (Or.inr rfl) s1 s2 h1 h2 _ 0 0 [] (by omega)
    (by omega) (by omega)]
  simp

/-- On bit vectors the function binary_add is the recursive adder of radix 2. -/
theorem binary_add_eq_ripple (v1 v2 : List Int) (h1 : InRadix 2 v1) (h2 : InRadix 2 v2) :
    binary_add v1 v2 = ripple 2 0 v1 v2 := by
  rw [binary_add_eq_finish, radix_loop_ripple 2 (Or.inl rfl) v1 v2 h1 h2 _ 0 0 [] (by omega)
    (by omega) (by omega)]
  simp

/-! ## Fuel -/

/-- Fuel beyond the number of remaining positions is never used by the adder loop. -/
theorem radix_loop_fuel (R : Int) (s1 s2 : List Int) (fuel k i : Nat) (t : Int)
    (res : List Int) (hf : max s1.length s2.length ≤ i + fuel) :
    radix_loop R s1 s2 (fuel + k) i t res = radix_loop R s1 s2 fuel i t res := by
  induction fuel generalizing i t res with
  | zero =>
    have c : ¬ (i < s1.length ∨ i < s2.length) := by omega
    cases k with
    | zero => rfl
    | succ k => simp only [Nat.zero_add, radix_loop, c, if_false]
  | succ f ih =>
    rw [Nat.add_right_comm]
    simp only [radix_loop]
    split
    · exact ih _ _ _ (by omega)
    · rfl

/-- The loop of add gives the same result for every fuel above the one add supplies. -/
theorem add_loop_fuel (s1 s2 : List Int) (k : Nat) :
    add_loop s1 s2 (max s1.length s2.length + k) 0 0 [] =
      add_loop s1 s2 (max s1.length s2.length) 0 0 [] := by
  rw [add_loop_eq_radix_loop, add_loop_eq_radix_loop]
  exact radix_loop_fuel 10 s1 s2 _ k 0 0 [] (by omega)

/-- The loop of binary_add gives the same result for every fuel above the one supplied. -/
theorem binary_add_loop_fuel (v1 v2 : List Int) (k : Nat) :
    binary_add_loop v1 v2 (max v1.length v2.length + k) 0 0 [] =
      binary_add_loop v1 v2 (max v1.length v2.length) 0 0 [] := by
  rw [binary_add_loop_eq_radix_loop, binary_add_loop_eq_radix_loop]
  exact radix_loop_fuel 2 v1 v2 _ k 0 0 [] (by omega)

/-! ## The positional value -/

theorem positional_nil (R : Int) : positional R [] = 0 := rfl

theorem positional_cons (R a : Int) (l : List Int) :
    positional R (a :: l) = a + R * positional R l := by
  unfold positional
  rw [List.length_cons, List.range_succ_eq_map, List.map_cons, List.sum_cons, List.map_map,
    ← List.sum_map_mul_left]
  congr 1
  · simp
  · apply congrArg
    apply List.map_congr_left
    intro i _
    simp only [Function.comp, List.getD_cons_succ, pow_succ]
    ring

theorem positional_eq_horner (R : Int) (l : List Int) : positional R l = horner R l := by
  induction l with
  | nil => rfl
  | cons a l ih => rw [positional_cons, ih, horner]

/-- The recursive adder adds positional values, carry included. -/
theorem horner_ripple (R t : Int) (as bs : List Int) :
    horner R (ripple R t as bs) = t + horner R as + horner R bs := by
  induction as generalizing t bs with
  | nil =>
    induction bs generalizing t with
    | nil => by_cases h : t = 0 <;> simp [ripple, horner, h]
    | cons b bs ihb =>
      simp only [ripple, horner, ihb]
      have := Int.emod_add_ediv (t + b) R
      linarith
  | cons a as ih =>
    cases bs with
    | nil =>
      simp only [ripple, horner, ih]
      have := Int.emod_add_ediv (t + a) R
      linarith
    | cons b bs =>
      simp only [ripple, horner, ih]
      have := Int.emod_add_ediv (t + a + b) R
      linarith

/-! ## Digits of the result -/

/-- The recursive adder is symmetric in its two operands. -/
theorem ripple_comm (R t : Int) (as bs : List Int) :
    ripple R t as bs = ripple R t bs as := by
  induction as generalizing t bs with
  | nil =>
    induction bs generalizing t with
    | nil => rfl
    | cons b bs ihb => simp only [ripple, ihb]
  | cons a as ih =>
    cases bs with
    | nil => simp only [ripple, ih]
    | cons b bs => simp only [ripple, ih, add_right_comm t a b]

/-- Every digit written by the recursive adder is a digit of the radix. -/
theorem ripple_InRadix (R : Int) (hR : R = 2 ∨ R = 10) (t : Int) (as bs : List Int)
    (ha : InRadix R as) (hb : InRadix R bs) (ht0 : 0 ≤ t) (ht1 : t ≤ 1) :
    InRadix R (ripple R t as bs) := by
  induction as generalizing t bs with
  | nil =>
    induction bs generalizing t with
    | nil =>
      by_cases h : t = 0
      · simp [ripple, h, InRadix]
      · have : t = 1 := by omega
        rcases hR with rfl | rfl <;> simp [ripple, this, InRadix]
    | cons b bs ihb =>
      rw [InRadix_cons] at hb
      simp only [ripple, InRadix_cons]
      obtain ⟨⟨hb0, hb1⟩, hbs⟩ := hb
      refine ⟨?_, ihb _ hbs ?_ ?_⟩ <;> rcases hR with rfl | rfl <;> omega
  | cons a as ih =>
    rw [InRadix_cons] at ha
    obtain ⟨⟨ha0, ha1⟩, has⟩ := ha
    cases bs with
    | nil =>
      simp only [ripple, InRadix_cons]
      refine ⟨?_, ih _ _ has hb ?_ ?_⟩ <;> rcases hR with rfl | rfl <;> omega
    | cons b bs =>
      rw [InRadix_cons] at hb
      obtain ⟨⟨hb0, hb1⟩, hbs⟩ := hb
      simp only [ripple, InRadix_cons]
      refine ⟨?_, ih _ _ has hbs ?_ ?_⟩ <;> rcases hR with rfl | rfl <;> omega

/-- Adding nothing with no carry copies a digit vector. -/
theorem ripple_nil_right (R : Int) (hR : R = 2 ∨ R = 10) (as : List Int) (ha : InRadix R as) :
    ripple R 0 as [] = as := by
  induction as with
  | nil => simp [ripple]
  | cons a as ih =>
    rw [InRadix_cons] at ha
    obtain ⟨⟨ha0, ha1⟩, has⟩ := ha
    have e1 : (0 + a) % R = a := by rcases hR with rfl | rfl <;> omega
    have e2 : (0 + a) / R = 0 := by rcases hR with rfl | rfl <;> omega
    simp only [ripple, e1, e2, ih has]

/-- Adding the single digit zero with no carry copies a non-empty digit vector. -/
theorem ripple_zero_right (R : Int) (hR : R = 2 ∨ R = 10) (as : List Int) (ha : InRadix R as)
    (hne : as ≠ []) : ripple R 0 as [0] = as := by
  cases as with
  | nil => exact absurd rfl hne
  | cons a as =>
    rw [InRadix_cons] at ha
    obtain ⟨⟨ha0, ha1⟩, has⟩ := ha
    have e1 : (0 + a + 0) % R = a := by rcases hR with rfl | rfl <;> omega
    have e2 : (0 + a + 0) / R = 0 := by rcases hR with rfl | rfl <;> omega
    simp only [ripple, e1, e2, ripple_nil_right R hR as has]

/-! ## The most significant digit -/

theorem ripple_cons_nil (R t a : Int) (as : List Int) :
    ripple R t (a :: as) [] = (t + a) % R :: ripple R ((t + a) / R) as [] := by
  rw [ripple]

theorem ripple_cons_cons (R t a b : Int) (as bs : List Int) :
    ripple R t (a :: as) (b :: bs) = (t + a + b) % R :: ripple R ((t + a + b) / R) as bs := by
  rw [ripple]

theorem getLast?_cons_of_some {x d : Int} {l : List Int} (h : l.getLast? = some d) :
    (x :: l).getLast? = some d := by
  cases l with
  | nil => simp at h
  | cons y l => rw [List.getLast?_cons_cons]; exact h

/-- When the longer operand ends in a non-zero digit, the recursive adder ends in a
non-zero digit. -/
theorem ripple_getLast (R : Int) (hR : R = 2 ∨ R = 10) (t : Int) (as bs : List Int)
    (ha : InRadix R as) (hb : InRadix R bs) (ht0 : 0 ≤ t) (ht1 : t ≤ 1)
    (hne : as ≠ []) (hlast : as.getLast? ≠ some 0) (hlen : bs.length ≤ as.length) :
    ∃ d, (ripple R t as bs).getLast? = some d ∧ d ≠ 0 := by
  induction as generalizing t bs with
  | nil => exact absurd rfl hne
  | cons a as ih =>
    rw [InRadix_cons] at ha
    obtain ⟨⟨ha0, ha1⟩, has⟩ := ha
    cases as with
    | nil =>
      have ha' : a ≠ 0 := by simpa using hlast
      cases bs with
      | nil =>
        by_cases c : (t + a) / R = 0
        · refine ⟨(t + a) % R, by simp [ripple, c], ?_⟩
          rcases hR with rfl | rfl <;> omega
        · exact ⟨(t + a) / R, by simp [ripple, c], c⟩
      | cons b bs =>
        have hbs : bs = [] := by
          apply List.eq_nil_of_length_eq_zero
          simp only [List.length_cons, List.length_nil] at hlen
          omega
        subst hbs
        rw [InRadix_cons] at hb
        obtain ⟨⟨hb0, hb1⟩, -⟩ := hb
        by_cases c : (t + a + b) / R = 0
        · refine ⟨(t + a + b) % R, by simp [ripple, c], ?_⟩
          rcases hR with rfl | rfl <;> omega
        · exact ⟨(t + a + b) / R, by simp [ripple, c], c⟩
    | cons a2 as2 =>
      have hlast' : (a2 :: as2).getLast? ≠ some 0 := by
        rwa [List.getLast?_cons_cons] at hlast
      cases bs with
      | nil =>
        obtain ⟨d, hd, hd0⟩ := ih ((t + a) / R) [] has hb
          (by rcases hR with rfl | rfl <;> omega) (by rcases hR with rfl | rfl <;> omega)
          (by simp) hlast' (by simp)
        exact ⟨d, by rw [ripple_cons_nil]; exact getLast?_cons_of_some hd, hd0⟩
      | cons b bs =>
        rw [InRadix_cons] at hb
        obtain ⟨⟨hb0, hb1⟩, hbs⟩ := hb
        obtain ⟨d, hd, hd0⟩ := ih ((t + a + b) / R) bs has hbs
          (by rcases hR with rfl | rfl <;> omega) (by rcases hR with rfl | rfl <;> omega)
          (by simp) hlast' (by simpa using hlen)
        exact ⟨d, by rw [ripple_cons_cons]; exact getLast?_cons_of_some hd, hd0⟩

/-- The sum of two vectors that satisfy the Digit Sequence invariant ends in a non-zero
digit, or is the vector of the single digit zero. -/
theorem ripple_canonical (R : Int) (hR : R = 2 ∨ R = 10) (s1 s2 : List Int)
    (h1 : DigitSeq R s1) (h2 : DigitSeq R s2) :
    ∃ d, (ripple R 0 s1 s2).getLast? = some d ∧ (d ≠ 0 ∨ ripple R 0 s1 s2 = [0]) := by
  obtain ⟨n1, r1, l1⟩ := h1
  obtain ⟨n2, r2, l2⟩ := h2
  have key : ∀ as bs : List Int, InRadix R as → InRadix R bs → as ≠ [] →
      as.getLast? ≠ some 0 → bs.length ≤ as.length →
      ∃ d, (ripple R 0 as bs).getLast? = some d ∧ (d ≠ 0 ∨ ripple R 0 as bs = [0]) := by
    intro as bs ha hb hne hl hlen
    obtain ⟨d, hd, hd0⟩ := ripple_getLast R hR 0 as bs ha hb (le_refl 0) (by omega) hne hl hlen
    exact ⟨d, hd, Or.inl hd0⟩
  have len_pos : ∀ l : List Int, l ≠ [] → 1 ≤ l.length := by
    intro l hl
    cases l with
    | nil => exact absurd rfl hl
    | cons x l => simp
  by_cases e1 : s1 = [0]
  · by_cases e2 : s2 = [0]
    · subst e1 e2
      refine ⟨0, ?_, Or.inr ?_⟩ <;> rcases hR with rfl | rfl <;> simp [ripple]
    · have l2' : s2.getLast? ≠ some 0 := l2.resolve_right e2
      rw [ripple_comm]
      refine key s2 s1 r2 r1 n2 l2' ?_
      rw [e1]
      exact len_pos s2 n2
  · have l1' : s1.getLast? ≠ some 0 := l1.resolve_right e1
    by_cases hlen : s2.length ≤ s1.length
    · exact key s1 s2 r1 r2 n1 l1' hlen
    · have e2 : s2 ≠ [0] := by
        intro h
        rw [h] at hlen
        exact hlen (len_pos s1 n1)
      rw [ripple_comm]
      exact key s2 s1 r2 r1 n2 (l2.resolve_right e2) (by omega)

/-! ## Claims on the two adders -/

/-- C1: decimal add is numerically correct. For digit vectors s1, s2 with every element in
[0,10), least-significant digit first, the positional value of add(s1, s2) in radix 10
(the sum of res[i] * 10^i) is the positional value of s1 plus the positional value of s2. -/
theorem add_positional (s1 s2 : List Int) (h1 : InRadix 10 s1) (h2 : InRadix 10 s2) :
    positional 10 (add s1 s2) = positional 10 s1 + positional 10 s2 := by
  rw [add_eq_ripple s1 s2 h1 h2, positional_eq_horner, positional_eq_horner,
    positional_eq_horner, horner_ripple]
  ring

theorem add_positional_witness :
    InRadix 10 [9, 9, 4] ∧ InRadix 10 [1, 5] ∧
      positional 10 (add [9, 9, 4] [1, 5]) = positional 10 [9, 9, 4] + positional 10 [1, 5] :=
  ⟨by decide, by decide, add_positional [9, 9, 4] [1, 5] (by decide) (by decide)⟩

/-- C3: add never produces a spurious most-significant zero. For s1, s2 that satisfy the
Digit Sequence invariant in radix 10 (non-empty, every digit in [0,10), last element
non-zero unless the sequence is exactly [0]), add(s1, s2) has a last element, and that
element is non-zero unless add(s1, s2) is exactly [0]. -/
theorem add_no_leading_zero (s1 s2 : List Int) (h1 : DigitSeq 10 s1) (h2 : DigitSeq 10 s2) :
    ∃ d, (add s1 s2).getLast? = some d ∧ (d ≠ 0 ∨ add s1 s2 = [0]) := by
  rw [add_eq_ripple s1 s2 h1.2.1 h2.2.1]
  exact ripple_canonical 10 (Or.inr rfl) s1 s2 h1 h2

theorem add_no_leading_zero_witness :
    DigitSeq 10 [5, 9] ∧ DigitSeq 10 [5] ∧
      ∃ d, (add [5, 9] [5]).getLast? = some d ∧ (d ≠ 0 ∨ add [5, 9] [5] = [0]) :=
  ⟨by decide, by decide, add_no_leading_zero [5, 9] [5] (by decide) (by decide)⟩

/-- C4: both adders keep every output digit inside the radix. For s1, s2 with every
element in [0,10), every element of add(s1, s2), the appended final carry included, is in
[0,10); for v1, v2 with every element in the set of 0 and 1, every element of
binary_add(v1, v2) is 0 or 1. -/
theorem adders_digits_in_radix :
    (∀ s1 s2 : List Int, (∀ x ∈ s1, 0 ≤ x ∧ x < 10) → (∀ x ∈ s2, 0 ≤ x ∧ x < 10) →
      ∀ x ∈ add s1 s2, 0 ≤ x ∧ x < 10) ∧
    (∀ v1 v2 : List Int, (∀ x ∈ v1, x = 0 ∨ x = 1) → (∀ x ∈ v2, x = 0 ∨ x = 1) →
      ∀ x ∈ binary_add v1 v2, x = 0 ∨ x = 1) := by
  constructor
  · intro s1 s2 h1 h2
    rw [add_eq_ripple s1 s2 h1 h2]
    exact ripple_InRadix 10 (Or.inr rfl) 0 s1 s2 h1 h2 (le_refl 0) (by omega)
  · intro v1 v2 h1 h2
    have r1 : InRadix 2 v1 := fun x hx => by rcases h1 x hx with h | h <;> omega
    have r2 : InRadix 2 v2 := fun x hx => by rcases h2 x hx with h | h <;> omega
    rw [binary_add_eq_ripple v1 v2 r1 r2]
    intro x hx
    have := ripple_InRadix 2 (Or.inl rfl) 0 v1 v2 r1 r2 (le_refl 0) (by omega) x hx
    omega

theorem adders_digits_in_radix_witness :
    (∀ x ∈ add [9, 9] [1], 0 ≤ x ∧ x < 10) ∧ (∀ x ∈ binary_add [1, 1] [1], x = 0 ∨ x = 1) :=
  ⟨adders_digits_in_radix.1 [9, 9] [1] (by decide) (by decide),
    adders_digits_in_radix.2 [1, 1] [1] (by decide) (by decide)⟩

/-- C5: add is commutative. For valid Digit Sequences a, b in radix 10, add(a, b) and
add(b, a) are the same vector, element for element and of the same length. -/
theorem add_commutative (a b : List Int) (ha : DigitSeq 10 a) (hb : DigitSeq 10 b) :
    add a b = add b a := by
  rw [add_eq_ripple a b ha.2.1 hb.2.1, add_eq_ripple b a hb.2.1 ha.2.1, ripple_comm]

theorem add_commutative_witness :
    DigitSeq 10 [7, 8, 9] ∧ DigitSeq 10 [6, 5] ∧ add [7, 8, 9] [6, 5] = add [6, 5] [7, 8, 9] :=
  ⟨by decide, by decide, add_commutative [7, 8, 9] [6, 5] (by decide) (by decide)⟩

/-- C6: the vector [0] is an identity element of add. For every Digit Sequence a that
satisfies the data-model invariant (non-empty, digits in [0,10), canonical),
add(a, [0]) is a; in particular add([0], [0]) is [0], a one-element vector and not the
empty vector. -/
theorem add_zero_identity (a : List Int) (ha : DigitSeq 10 a) :
    add a [0] = a ∧ add [0] [0] = [0] ∧ (add [0] [0]).length = 1 := by
  refine ⟨?_, by decide, by decide⟩
  rw [add_eq_ripple a [0] ha.2.1 (by decide)]
  exact ripple_zero_right 10 (Or.inr rfl) a ha.2.1 ha.1

theorem add_zero_identity_witness :
    DigitSeq 10 [3, 0, 7] ∧
      (add [3, 0, 7] [0] = [3, 0, 7] ∧ add [0] [0] = [0] ∧ (add [0] [0]).length = 1) :=
  ⟨by decide, add_zero_identity [3, 0, 7] (by decide)⟩

/-! ## The codec -/

theorem take_succ_reverse {α : Type} (l : List α) (k : Nat) (h : k < l.length) :
    (l.take (k + 1)).reverse = l[k] :: (l.take k).reverse := by
  rw [List.take_succ, List.getElem?_eq_getElem h]
  simp

theorem str_to_vec_loop_eq (s : List Char) (k : Nat) (vec : List Int) (hk : k ≤ s.length) :
    str_to_vec_loop s k vec = vec ++ (s.take k).reverse.map charValue := by
  induction k generalizing vec with
  | zero => simp [str_to_vec_loop]
  | succ k ih =>
    have hlt : k < s.length := by omega
    rw [str_to_vec_loop, ih _ (by omega), take_succ_reverse s k hlt,
      List.getD_eq_getElem s _ hlt]
    simp [charValue]

/-- The function str_to_vec reverses the characters and takes the value of each. -/
theorem str_to_vec_eq (s : String) : str_to_vec s = s.data.reverse.map charValue := by
  unfold str_to_vec
  have e : s.length = s.data.length := rfl
  rw [str_to_vec_loop_eq s.data s.length [] (le_of_eq e), e, List.take_length, List.nil_append]

theorem toString_digit (d : Int) (h0 : 0 ≤ d) (h1 : d < 10) :
    toString d = String.singleton (digitChar10 d) := by
  interval_cases d <;> rfl

theorem charValue_digitChar10 (d : Int) (h0 : 0 ≤ d) (h1 : d < 10) :
    charValue (digitChar10 d) = d := by
  interval_cases d <;> rfl

theorem digitChar10_mem (d : Int) (h0 : 0 ≤ d) (h1 : d < 10) :
    digitChar10 d ∈ decimalDigits := by
  interval_cases d <;> decide

theorem digitValue_of_mem (c : Char) (hc : c ∈ decimalDigits) :
    digitValue c = some (charValue c) := by
  simp only [decimalDigits, digitTable, List.map, List.mem_cons, List.mem_singleton,
    List.not_mem_nil, or_false] at hc
  rcases hc with h | h | h | h | h | h | h | h | h | h <;> subst h <;> rfl

theorem output_loop_data (res : List Int) (hres : InRadix 10 res) (k : Nat) (out : String)
    (hk : k ≤ res.length) :
    (output_loop res k out).data = out.data ++ (res.take k).reverse.map digitChar10 := by
  induction k generalizing out with
  | zero => simp [output_loop]
  | succ k ih =>
    have hlt : k < res.length := by omega
    have hd := InRadix_getElem hres k hlt
    rw [output_loop, ih _ (by omega), take_succ_reverse res k hlt, getD_of_lt res k hlt,
      toString_digit _ hd.1 hd.2]
    simp [String.singleton]

/-- The output loop writes one character per element, the last element first. -/
theorem render_data (res : List Int) (hres : InRadix 10 res) :
    (render res).data = res.reverse.map digitChar10 := by
  unfold render
  rw [output_loop_data res hres res.length "" (le_refl _)]
  simp

/-- Reading back the text written for a vector of decimal digits gives the vector. -/
theorem str_to_vec_render (v : List Int) (hv : InRadix 10 v) : str_to_vec (render v) = v := by
  rw [str_to_vec_eq, render_data v hv, ← List.map_reverse, List.reverse_reverse, List.map_map]
  conv_rhs => rw [← List.map_id v]
  apply List.map_congr_left
  intro d hd
  exact charValue_digitChar10 d (hv d hd).1 (hv d hd).2

theorem render_length (v : List Int) (hv : InRadix 10 v) : (render v).length = v.length := by
  have e : (render v).length = (render v).data.length := rfl
  rw [e, render_data v hv, List.length_map, List.length_reverse]

/-! ## Claims on the codec and on binary addition -/

/-- C7: round-trip stability of the codec on adder output. For vectors a, b with digits in
[0,R), R = 2 for binary_add and R = 10 for add, writing the sum most-significant digit
first as the output loop of main does (one character per element, last element first) and
applying str_to_vec to that text returns exactly the sum vector. -/
theorem adder_output_roundtrip (a b : List Int) :
    (InRadix 2 a → InRadix 2 b →
      (render (binary_add a b)).length = (binary_add a b).length ∧
        str_to_vec (render (binary_add a b)) = binary_add a b) ∧
    (InRadix 10 a → InRadix 10 b →
      (render (add a b)).length = (add a b).length ∧
        str_to_vec (render (add a b)) = add a b) := by
  constructor
  · intro ha hb
    have h : InRadix 10 (binary_add a b) := by
      rw [binary_add_eq_ripple a b ha hb]
      exact InRadix_mono (by omega)
        (ripple_InRadix 2 (Or.inl rfl) 0 a b ha hb (le_refl 0) (by omega))
    exact ⟨render_length _ h, str_to_vec_render _ h⟩
  · intro ha hb
    have h : InRadix 10 (add a b) := by
      rw [add_eq_ripple a b ha hb]
      exact ripple_InRadix 10 (Or.inr rfl) 0 a b ha hb (le_refl 0) (by omega)
    exact ⟨render_length _ h, str_to_vec_render _ h⟩

theorem adder_output_roundtrip_witness :
    (InRadix 2 [1, 0, 1] ∧ InRadix 2 [1, 1] ∧
      (render (binary_add [1, 0, 1] [1, 1])).length = (binary_add [1, 0, 1] [1, 1]).length ∧
        str_to_vec (render (binary_add [1, 0, 1] [1, 1])) = binary_add [1, 0, 1] [1, 1]) ∧
    (InRadix 10 [8, 9, 9] ∧ InRadix 10 [7, 1] ∧
      (render (add [8, 9, 9] [7, 1])).length = (add [8, 9, 9] [7, 1]).length ∧
        str_to_vec (render (add [8, 9, 9] [7, 1])) = add [8, 9, 9] [7, 1]) :=
  ⟨⟨by decide, by decide,
      (adder_output_roundtrip [1, 0, 1] [1, 1]).1 (by decide) (by decide)⟩,
    ⟨by decide, by decide,
      (adder_output_roundtrip [8, 9, 9] [7, 1]).2 (by decide) (by decide)⟩⟩

/-- C8: str_to_vec decodes by reversing. For every string s made only of the characters
0 to 9, str_to_vec(s) has the length of s and its element at index i is the numeric value
of the character of s at index |s| - 1 - i; the empty string gives the empty vector. -/
theorem str_to_vec_reverses (s : String) (hs : ∀ c ∈ s.data, c ∈ decimalDigits) :
    (str_to_vec s).length = s.length ∧
      (∀ i, i < s.length → ∃ c v, s.data[s.length - 1 - i]? = some c ∧
        digitValue c = some v ∧ (str_to_vec s)[i]? = some v) ∧
      str_to_vec "" = [] := by
  have e : s.length = s.data.length := rfl
  refine ⟨?_, ?_, by decide⟩
  · rw [str_to_vec_eq, List.length_map, List.length_reverse, e]
  · intro i hi
    rw [e] at hi
    have hj : s.data.length - 1 - i < s.data.length := by omega
    refine ⟨s.data[s.data.length - 1 - i], charValue s.data[s.data.length - 1 - i], ?_,
      digitValue_of_mem _ (hs _ (List.getElem_mem hj)), ?_⟩
    · rw [e, List.getElem?_eq_getElem hj]
    · rw [str_to_vec_eq, List.getElem?_map, List.getElem?_reverse hi,
        List.getElem?_eq_getElem hj]
      rfl

theorem str_to_vec_reverses_witness :
    (∀ c ∈ "2048".data, c ∈ decimalDigits) ∧
      ((str_to_vec "2048").length = "2048".length ∧
        (∀ i, i < "2048".length → ∃ c v, "2048".data["2048".length - 1 - i]? = some c ∧
          digitValue c = some v ∧ (str_to_vec "2048")[i]? = some v) ∧
        str_to_vec "" = []) :=
  ⟨by decide, str_to_vec_reverses "2048" (by decide)⟩

/-- C9: binary addition is numerically correct. For vectors v1, v2 with every element 0
or 1, least-significant bit first, the radix-2 positional value of binary_add(v1, v2) is
value(v1) + value(v2); and binary_add(str_to_vec("101"), str_to_vec("11")) written
most-significant bit first is "1000" (5 + 3 = 8). -/
theorem binary_add_positional (v1 v2 : List Int) (h1 : ∀ x ∈ v1, x = 0 ∨ x = 1)
    (h2 : ∀ x ∈ v2, x = 0 ∨ x = 1) :
    positional 2 (binary_add v1 v2) = positional 2 v1 + positional 2 v2 ∧
      render (binary_add (str_to_vec "101") (str_to_vec "11")) = "1000" ∧
      positional 2 (str_to_vec "101") = 5 ∧ positional 2 (str_to_vec "11") = 3 ∧
      positional 2 (binary_add (str_to_vec "101") (str_to_vec "11")) = 8 := by
  refine ⟨?_, by decide, by decide, by decide, by decide⟩
  have r1 : InRadix 2 v1 := fun x hx => by rcases h1 x hx with h | h <;> omega
  have r2 : InRadix 2 v2 := fun x hx => by rcases h2 x hx with h | h <;> omega
  rw [binary_add_eq_ripple v1 v2 r1 r2, positional_eq_horner, positional_eq_horner,
    positional_eq_horner, horner_ripple]
  ring

theorem binary_add_positional_witness :
    (∀ x ∈ [1, 1, 0, 1], x = 0 ∨ x = 1) ∧ (∀ x ∈ [1, 1, 1], x = 0 ∨ x = 1) ∧
      (positional 2 (binary_add [1, 1, 0, 1] [1, 1, 1]) =
          positional 2 [1, 1, 0, 1] + positional 2 [1, 1, 1] ∧
        render (binary_add (str_to_vec "101") (str_to_vec "11")) = "1000" ∧
        positional 2 (str_to_vec "101") = 5 ∧ positional 2 (str_to_vec "11") = 3 ∧
        positional 2 (binary_add (str_to_vec "101") (str_to_vec "11")) = 8) :=
  ⟨by decide, by decide, binary_add_positional [1, 1, 0, 1] [1, 1, 1] (by decide) (by decide)⟩

/-! ## Canonical digit vectors are determined by their value -/

theorem horner_nonneg (l : List Int) (hl : InRadix 10 l) : 0 ≤ horner 10 l := by
  induction l with
  | nil => simp [horner]
  | cons a l ih =>
    rw [InRadix_cons] at hl
    have := ih hl.2
    simp only [horner]
    omega

theorem horner_eq_zero (l : List Int) (hl : InRadix 10 l) (hlast : l.getLast? ≠ some 0)
    (h0 : horner 10 l = 0) : l = [] := by
  induction l with
  | nil => rfl
  | cons a l ih =>
    exfalso
    rw [InRadix_cons] at hl
    have hn := horner_nonneg l hl.2
    simp only [horner] at h0
    have ha : a = 0 := by omega
    have hl0 : horner 10 l = 0 := by omega
    cases l with
    | nil => exact hlast (by simp [ha])
    | cons b l =>
      rw [List.getLast?_cons_cons] at hlast
      exact List.cons_ne_nil _ _ (ih hl.2 hlast hl0)

theorem getLast?_tail_ne {a : Int} {l : List Int} (h : (a :: l).getLast? ≠ some 0) :
    l.getLast? ≠ some 0 := by
  cases l with
  | nil => simp
  | cons b l => rwa [List.getLast?_cons_cons] at h

/-- Two digit vectors without a most significant zero and with the same value are equal. -/
theorem horner_injective (l1 l2 : List Int) (h1 : InRadix 10 l1) (h2 : InRadix 10 l2)
    (n1 : l1.getLast? ≠ some 0) (n2 : l2.getLast? ≠ some 0)
    (h : horner 10 l1 = horner 10 l2) : l1 = l2 := by
  induction l1 generalizing l2 with
  | nil =>
    exact (horner_eq_zero l2 h2 n2 (by rw [← h]; rfl)).symm
  | cons a as ih =>
    cases l2 with
    | nil => exact horner_eq_zero (a :: as) h1 n1 (by rw [h]; rfl)
    | cons b bs =>
      rw [InRadix_cons] at h1 h2
      simp only [horner] at h
      have hab : a = b := by omega
      have hrest : horner 10 as = horner 10 bs := by omega
      rw [hab, ih bs h1.2 h2.2 (getLast?_tail_ne n1) (getLast?_tail_ne n2) hrest]

theorem horner_map_ofNat (L : List Nat) :
    horner 10 (L.map Int.ofNat) = ((Nat.ofDigits 10 L : Nat) : Int) := by
  induction L with
  | nil => simp [horner]
  | cons d L ih =>
    simp only [List.map_cons, horner, ih, Nat.ofDigits_cons]
    push_cast
    rfl

/-- A digit vector without a most significant zero is the list of decimal digits of its
value. -/
theorem eq_digits_of_horner (l : List Int) (hl : InRadix 10 l) (hlast : l.getLast? ≠ some 0)
    (k : Nat) (hk : horner 10 l = (k : Int)) : l = (Nat.digits 10 k).map Int.ofNat := by
  apply horner_injective l _ hl _ hlast
  · rw [List.getLast?_map]
    by_cases h0 : k = 0
    · simp [h0]
    · rw [List.getLast?_eq_getLast _ (Nat.digits_ne_nil_iff_ne_zero.mpr h0)]
      have := Nat.getLast_digit_ne_zero 10 h0
      simpa using this
  · rw [hk, horner_map_ofNat, Nat.ofDigits_digits]
  · intro x hx
    rw [List.mem_map] at hx
    obtain ⟨d, hd, rfl⟩ := hx
    have := Nat.digits_lt_base (by omega : 1 < 10) hd
    have hlt : (d : Int) < 10 := by exact_mod_cast this
    exact ⟨Int.ofNat_nonneg d, hlt⟩

/-! ## The Fibonacci loop -/

theorem Fib_eq_fib (k : Nat) : Fib k = Nat.fib k := by
  induction k using Nat.strong_induction_on with
  | _ k ih =>
    match k with
    | 0 => rfl
    | 1 => rfl
    | k + 2 =>
      rw [Fib, ih (k + 1) (by omega), ih k (by omega), Nat.fib_add_two]
      ring

theorem Fib_pos (k : Nat) (hk : 1 ≤ k) : 0 < Fib k := by
  rw [Fib_eq_fib]
  exact Nat.fib_pos.mpr hk

/-- The sum of two vectors that satisfy the Digit Sequence invariant satisfies it. -/
theorem DigitSeq_add (a b : List Int) (ha : DigitSeq 10 a) (hb : DigitSeq 10 b) :
    DigitSeq 10 (add a b) := by
  have e := add_eq_ripple a b ha.2.1 hb.2.1
  obtain ⟨d, hd, hd0⟩ := ripple_canonical 10 (Or.inr rfl) a b ha hb
  rw [← e] at hd hd0
  refine ⟨?_, ?_, ?_⟩
  · intro h
    rw [h] at hd
    simp at hd
  · rw [e]
    exact ripple_InRadix 10 (Or.inr rfl) 0 a b ha.2.1 hb.2.1 (le_refl 0) (by omega)
  · rcases hd0 with h | h
    · left
      rw [hd]
      intro h'
      exact h (Option.some.inj h')
    · exact Or.inr h

theorem positional_add (a b : List Int) (ha : InRadix 10 a) (hb : InRadix 10 b) :
    positional 10 (add a b) = positional 10 a + positional 10 b := by
  rw [add_eq_ripple a b ha hb, positional_eq_horner, positional_eq_horner,
    positional_eq_horner, horner_ripple]
  ring

theorem wrap32_pred (n : Int) (h1 : -2147483647 ≤ n) (h2 : n ≤ 2147483647) :
    wrap32 (n - 1) = n - 1 :=
  wrap32_of_range _ (by omega) (by omega)

/-- Fuel beyond the number of remaining iterations is never used by the Fibonacci loop. -/
theorem fib_loop_fuel (n : Int) (fuel k : Nat) (i : Int) (st : FibState)
    (hf : wrap32 (n - 1) ≤ i + fuel) :
    fib_loop n (fuel + k) i st = fib_loop n fuel i st := by
  induction fuel generalizing i st with
  | zero =>
    have c : ¬ i < wrap32 (n - 1) := by simp at hf; omega
    cases k with
    | zero => rfl
    | succ k => simp only [Nat.zero_add, fib_loop, c, if_false]
  | succ f ih =>
    rw [Nat.add_right_comm]
    simp only [fib_loop]
    split
    · exact ih _ _ (by push_cast at hf; omega)
    · rfl

/-- The loop of the driver gives the same state for every fuel above the one supplied. -/
theorem fib_state_fuel (n : Int) (k : Nat) (st : FibState) :
    fib_loop n ((wrap32 (n - 1)).toNat + k) 0 st = fib_loop n (wrap32 (n - 1)).toNat 0 st :=
  fib_loop_fuel n _ k 0 st (by omega)

theorem FibInv_init : FibInv 0 { pre_1 := [1], pre_2 := [0], current := [] } := by
  refine ⟨by decide, by decide, by decide, by decide, ?_⟩
  intro h
  omega

theorem FibInv_step (j : Nat) (st : FibState) (h : FibInv j st) :
    FibInv (j + 1)
      { pre_1 := add st.pre_1 st.pre_2, pre_2 := st.pre_1, current := add st.pre_1 st.pre_2 } := by
  obtain ⟨d1, d2, v1, v2, -⟩ := h
  refine ⟨DigitSeq_add _ _ d1 d2, d1, ?_, v1, fun _ => rfl⟩
  show positional 10 (add st.pre_1 st.pre_2) = _
  rw [positional_add _ _ d1.2.1 d2.2.1, v1, v2, Fib]
  push_cast
  rfl

/-- The loop runs its iterations to the bound and keeps the invariant. -/
theorem fib_loop_inv (n : Int) (m : Nat) (hB : wrap32 (n - 1) = (m : Int)) (fuel j : Nat)
    (st : FibState) (hj : j + fuel = m) (h : FibInv j st) :
    FibInv m (fib_loop n fuel (j : Int) st) := by
  induction fuel generalizing j st with
  | zero =>
    have : j = m := by omega
    subst this
    exact h
  | succ f ih =>
    have c : (j : Int) < wrap32 (n - 1) := by rw [hB]; exact_mod_cast (by omega : j < m)
    simp only [fib_loop, c, if_true]
    have := ih (j + 1) _ (by omega) (FibInv_step j st h)
    simpa using this

/-- For an index n of at least 2 the state after the loop satisfies the invariant at n - 1. -/
theorem fib_state_inv (n : Int) (h2 : 2 ≤ n) (hmax : n ≤ 2147483647) :
    FibInv (n.toNat - 1) (fib_state n) := by
  have hB : wrap32 (n - 1) = ((n.toNat - 1 : Nat) : Int) := by
    rw [wrap32_pred n (by omega) hmax]
    omega
  unfold fib_state
  have e : (wrap32 (n - 1)).toNat = n.toNat - 1 := by rw [hB]; simp
  rw [e]
  have := fib_loop_inv n (n.toNat - 1) hB (n.toNat - 1) 0 _ (by omega) FibInv_init
  simpa using this

/-- For an index n of at least 2 the vector current holds the decimal digits of Fib n. -/
theorem fib_state_current (n : Int) (h2 : 2 ≤ n) (hmax : n ≤ 2147483647) :
    (fib_state n).current = (Nat.digits 10 (Fib n.toNat)).map Int.ofNat := by
  obtain ⟨d1, -, v1, -, hc⟩ := fib_state_inv n h2 hmax
  have hn : n.toNat - 1 + 1 = n.toNat := by omega
  rw [hn] at v1
  rw [hc (by omega)]
  rw [positional_eq_horner] at v1
  have hpos := Fib_pos n.toNat (by omega)
  apply eq_digits_of_horner _ d1.2.1 _ _ v1
  rcases d1.2.2 with h | h
  · exact h
  · rw [h] at v1
    simp [horner] at v1
    omega

/-! ## The text written by the Fibonacci driver -/

theorem toDigitsCore_eq (fuel n : Nat) (ds : List Char) (hn : 0 < n) (hf : n < fuel) :
    Nat.toDigitsCore 10 fuel n ds = (Nat.digits 10 n).reverse.map Nat.digitChar ++ ds := by
  induction fuel generalizing n ds with
  | zero => omega
  | succ f ih =>
    rw [Nat.digits_def' (by omega) hn]
    simp only [Nat.toDigitsCore]
    by_cases c : n / 10 = 0
    · simp [c]
    · rw [if_neg c, ih (n / 10) _ (by omega) (by omega)]
      simp

/-- The decimal numeral of a positive number lists its digits, the most significant first. -/
theorem toString_eq_digits (k : Nat) (hk : 0 < k) :
    toString k = String.mk ((Nat.digits 10 k).reverse.map Nat.digitChar) := by
  show Nat.repr k = _
  unfold Nat.repr Nat.toDigits
  rw [toDigitsCore_eq (k + 1) k [] hk (by omega)]
  simp [List.asString]

theorem fib_output_loop_data (cur : List Int) (hcur : InRadix 10 cur) (k : Nat) (out : String)
    (hk : k ≤ cur.length) :
    (fib_output_loop cur k out).data =
      out.data ++ (cur.take k).reverse.map digitChar10 ++ (if k = 0 then [] else ['\n']) := by
  induction k generalizing out with
  | zero => simp [fib_output_loop]
  | succ k ih =>
    have hlt : k < cur.length := by omega
    have hd := InRadix_getElem hcur k hlt
    rw [fib_output_loop, ih _ (by omega), take_succ_reverse cur k hlt, getD_of_lt cur k hlt,
      toString_digit _ hd.1 hd.2]
    by_cases c : k = 0
    · subst c
      simp [String.singleton]
    · simp [String.singleton, c]

theorem digitChar10_ofNat (d : Nat) : digitChar10 (Int.ofNat d) = Nat.digitChar d := rfl

/-- The output loop of the driver, run on the digits of a positive number after the text
out, appends the decimal numeral of the number and a newline. -/
theorem fib_output_loop_digits (k : Nat) (hk : 0 < k) (out : String) :
    fib_output_loop ((Nat.digits 10 k).map Int.ofNat) ((Nat.digits 10 k).map Int.ofNat).length
      out = out ++ toString k ++ "\n" := by
  have hr : InRadix 10 ((Nat.digits 10 k).map Int.ofNat) := by
    intro x hx
    rw [List.mem_map] at hx
    obtain ⟨d, hd, rfl⟩ := hx
    have := Nat.digits_lt_base (by omega : 1 < 10) hd
    have hlt : (d : Int) < 10 := by exact_mod_cast this
    exact ⟨Int.ofNat_nonneg d, hlt⟩
  have hne : ((Nat.digits 10 k).map Int.ofNat).length ≠ 0 := by
    rw [List.length_map]
    exact fun h => (Nat.digits_ne_nil_iff_ne_zero.mpr (by omega : k ≠ 0))
      (List.eq_nil_of_length_eq_zero h)
  apply String.ext
  rw [fib_output_loop_data _ hr _ out (le_refl _), List.take_length, if_neg hne,
    toString_eq_digits k hk, ← List.map_reverse, List.map_map]
  simp only [String.data_append]
  rfl

/-! ## Claims on the Fibonacci driver -/

/-- C2: the Fibonacci driver computes Fibonacci numbers. For every index n of at least 2
(an int, so at most 2147483647), after the loop starting from pre_1 = [1], pre_2 = [0] the
vector current holds the decimal digits of Fib(n), least significant first, so that read
most-significant digit first it is the decimal numeral of Fib(n); the driver writes that
numeral. The scenarios: n = 2 gives 1, n = 10 gives 55, n = 20 gives 6765, n = 50 gives
12586269025 and n = 200 gives 280571172992510140037611932413038677189525. -/
theorem fib_driver_fibonacci (n : Int) (h2 : 2 ≤ n) (hmax : n ≤ 2147483647) :
    (fib_state n).current = (Nat.digits 10 (Fib n.toNat)).map Int.ofNat ∧
      fib_render (fib_state n).current = toString (Fib n.toNat) ++ "\n" ∧
      fib_main_body n = "第" ++ toString n ++ "项是: " ++ toString (Fib n.toNat) ++ "\n" ∧
      fib_render (fib_state 2).current = "1\n" ∧
      fib_render (fib_state 10).current = "55\n" ∧
      fib_render (fib_state 20).current = "6765\n" ∧
      fib_render (fib_state 50).current = "12586269025\n" ∧
      fib_render (fib_state 200).current = "280571172992510140037611932413038677189525\n" := by
  have general : ∀ m : Int, 2 ≤ m → m ≤ 2147483647 → ∀ out : String,
      fib_output_loop (fib_state m).current (fib_state m).current.length out =
        out ++ toString (Fib m.toNat) ++ "\n" := by
    intro m hm2 hmm out
    rw [fib_state_current m hm2 hmm]
    exact fib_output_loop_digits _ (Fib_pos _ (by omega)) out
  refine ⟨fib_state_current n h2 hmax, ?_, ?_, by decide, by decide, by decide, ?_, ?_⟩
  · have := general n h2 hmax ""
    simpa [fib_render] using this
  · have c0 : ¬ n = 0 := by omega
    have c1 : ¬ n = 1 := by omega
    simp only [fib_main_body, c0, c1, if_false]
    rw [general n h2 hmax]
    apply String.ext
    simp [String.data_append]
  · have := general 50 (by decide) (by decide) ""
    rw [fib_render, this, Fib_eq_fib]
    norm_num
    decide
  · have := general 200 (by decide) (by decide) ""
    rw [fib_render, this, Fib_eq_fib]
    norm_num
    decide

theorem fib_driver_fibonacci_witness :
    (2 : Int) ≤ 10 ∧ (10 : Int) ≤ 2147483647 ∧
      ((fib_state 10).current = (Nat.digits 10 (Fib (10 : Int).toNat)).map Int.ofNat ∧
        fib_render (fib_state 10).current = toString (Fib (10 : Int).toNat) ++ "\n" ∧
        fib_main_body 10 =
          "第" ++ toString (10 : Int) ++ "项是: " ++ toString (Fib (10 : Int).toNat) ++ "\n" ∧
        fib_render (fib_state 2).current = "1\n" ∧
        fib_render (fib_state 10).current = "55\n" ∧
        fib_render (fib_state 20).current = "6765\n" ∧
        fib_render (fib_state 50).current = "12586269025\n" ∧
        fib_render (fib_state 200).current =
          "280571172992510140037611932413038677189525\n") :=
  ⟨by decide, by decide, fib_driver_fibonacci 10 (by decide) (by decide)⟩

/-- C10: seed cases of the recurrence driver. For n = 0 the loop leaves the seed
pre_2 = [0] untouched and the driver writes 0 as term 0; for n = 1 the loop leaves the seed
pre_1 = [1] untouched and the driver writes 1 as term 1. Both terms are written by the
special-case lines of the driver; the text of the general line follows them. -/
theorem fib_driver_seed_cases :
    (fib_state 0).pre_2 = [0] ∧ positional 10 (fib_state 0).pre_2 = 0 ∧
      fib_main_body 0 = "第0项为: 0\n" ++ "第0项是: " ∧
      (fib_state 1).pre_1 = [1] ∧ positional 10 (fib_state 1).pre_1 = 1 ∧
      fib_main_body 1 = "第1项为: 1\n" ++ "第1项是: " := by
  decide

/-! ## Reads, lengths and carries of the adder loops -/

/-- Every read of the loop of add is inside its vector: the checked loop never fails. -/
theorem add_loop_checked_eq (s1 s2 : List Int) (fuel i : Nat) (t : Int) (res : List Int) :
    add_loop_checked s1 s2 fuel i t res = some (add_loop s1 s2 fuel i t res) := by
  induction fuel generalizing i t res with
  | zero => rfl
  | succ k ih =>
    by_cases c1 : i < s1.length <;> by_cases c2 : i < s2.length <;>
      simp [add_loop_checked, add_loop, c1, c2, ih, List.getElem?_eq_getElem,
        List.getD_eq_getElem]

theorem add_checked_eq (s1 s2 : List Int) : add_checked s1 s2 = some (add s1 s2) := by
  simp [add_checked, add, add_loop_checked_eq]

/-- The loop pushes exactly one element for each remaining position. -/
theorem radix_loop_length (R : Int) (s1 s2 : List Int) (fuel i : Nat) (t : Int)
    (res : List Int) (hf : max s1.length s2.length ≤ i + fuel) :
    (radix_loop R s1 s2 fuel i t res).1.length =
      res.length + (max s1.length s2.length - i) := by
  induction fuel generalizing i t res with
  | zero =>
    simp only [radix_loop]
    omega
  | succ k ih =>
    simp only [radix_loop]
    split
    · rw [ih _ _ _ (by omega), List.length_append, List.length_singleton]
      omega
    · simp only
      omega

/-- With digits of the radix and an incoming carry of 0 or 1, the carry that the loop
holds when it stops, after any number of iterations, is 0 or 1. -/
theorem radix_loop_carry (R : Int) (hR : R = 2 ∨ R = 10) (s1 s2 : List Int)
    (h1 : InRadix R s1) (h2 : InRadix R s2) (fuel i : Nat) (t : Int) (res : List Int)
    (ht0 : 0 ≤ t) (ht1 : t ≤ 1) :
    0 ≤ (radix_loop R s1 s2 fuel i t res).2 ∧ (radix_loop R s1 s2 fuel i t res).2 ≤ 1 := by
  induction fuel generalizing i t res with
  | zero => exact ⟨ht0, ht1⟩
  | succ k ih =>
    have hR0 : (0 : Int) ≤ R := by rcases hR with rfl | rfl <;> omega
    by_cases c1 : i < s1.length <;> by_cases c2 : i < s2.length
    · have b1 := InRadix_getElem h1 i c1
      have b2 := InRadix_getElem h2 i c2
      have w1 : wrap32 (t + s1[i]) = t + s1[i] := by
        apply wrap32_of_range <;> rcases hR with rfl | rfl <;> omega
      have w2 : wrap32 (t + s1[i] + s2[i]) = t + s1[i] + s2[i] := by
        apply wrap32_of_range <;> rcases hR with rfl | rfl <;> omega
      have hs : 0 ≤ t + s1[i] + s2[i] := by omega
      simp only [radix_loop, c1, c2, true_or, if_true, getD_of_lt, w1, w2,
        Int.tdiv_eq_ediv hs hR0]
      exact ih _ _ _ (by rcases hR with rfl | rfl <;> omega)
        (by rcases hR with rfl | rfl <;> omega)
    · have b1 := InRadix_getElem h1 i c1
      have w1 : wrap32 (t + s1[i]) = t + s1[i] := by
        apply wrap32_of_range <;> rcases hR with rfl | rfl <;> omega
      have hs : 0 ≤ t + s1[i] := by omega
      simp only [radix_loop, c1, c2, true_or, if_true, if_false, getD_of_lt, w1,
        Int.tdiv_eq_ediv hs hR0]
      exact ih _ _ _ (by rcases hR with rfl | rfl <;> omega)
        (by rcases hR with rfl | rfl <;> omega)
    · have b2 := InRadix_getElem h2 i c2
      have w2 : wrap32 (t + s2[i]) = t + s2[i] := by
        apply wrap32_of_range <;> rcases hR with rfl | rfl <;> omega
      have hs : 0 ≤ t + s2[i] := by omega
      simp only [radix_loop, c1, c2, or_true, if_true, if_false, getD_of_lt, w2,
        Int.tdiv_eq_ediv hs hR0]
      exact ih _ _ _ (by rcases hR with rfl | rfl <;> omega)
        (by rcases hR with rfl | rfl <;> omega)
    · simp only [radix_loop, c1, c2, or_self, if_false]
      exact ⟨ht0, ht1⟩

theorem getD_InRadix {R : Int} (hR : 0 < R) {l : List Int} (hl : InRadix R l) (k : Nat) :
    0 ≤ l.getD k 0 ∧ l.getD k 0 < R := by
  by_cases c : k < l.length
  · rw [getD_of_lt l k c]
    exact InRadix_getElem hl k c
  · rw [List.getD_eq_default _ _ (by omega)]
    exact ⟨le_refl 0, hR⟩

/-! ## Further claims on add -/

/-- C11: an empty vector is accepted by add and behaves as zero. For every vector a with
digits in [0,10), add(a, []) is a and add([], a) is a, no error is raised and no read falls
outside a vector (the loop with checked reads succeeds with the same result); in
particular add([], []) is []. -/
theorem add_empty (a : List Int) (ha : InRadix 10 a) :
    add a [] = a ∧ add [] a = a ∧ add [] [] = [] ∧
      add_checked a [] = some a ∧ add_checked [] a = some a ∧ add_checked [] [] = some [] := by
  have e1 : add a [] = a := by
    rw [add_eq_ripple a [] ha (InRadix_nil 10)]
    exact ripple_nil_right 10 (Or.inr rfl) a ha
  have e2 : add [] a = a := by
    rw [add_eq_ripple [] a (InRadix_nil 10) ha, ripple_comm]
    exact ripple_nil_right 10 (Or.inr rfl) a ha
  refine ⟨e1, e2, by decide, ?_, ?_, by decide⟩
  · rw [add_checked_eq, e1]
  · rw [add_checked_eq, e2]

theorem add_empty_witness :
    InRadix 10 [4, 0, 9] ∧
      (add [4, 0, 9] [] = [4, 0, 9] ∧ add [] [4, 0, 9] = [4, 0, 9] ∧ add [] [] = [] ∧
        add_checked [4, 0, 9] [] = some [4, 0, 9] ∧ add_checked [] [4, 0, 9] = some [4, 0, 9] ∧
        add_checked [] [] = some []) :=
  ⟨by decide, add_empty [4, 0, 9] (by decide)⟩

/-- C14: the carry never exceeds one. For s1, s2 with every digit in [0,10), the value of t
after the division of every iteration of the loop of add (the loop stopped after k
iterations, for every k) and at the final test of t is 0 or 1, and the column sum before
the division is below 20; the same holds for binary_add with radix 2 and bound 4. -/
theorem carry_at_most_one (s1 s2 : List Int) :
    (InRadix 10 s1 → InRadix 10 s2 →
      (∀ k : Nat, ((add_loop s1 s2 k 0 0 []).2 = 0 ∨ (add_loop s1 s2 k 0 0 []).2 = 1) ∧
        (add_loop s1 s2 k 0 0 []).2 + s1.getD k 0 + s2.getD k 0 < 20) ∧
      ((add_loop s1 s2 (max s1.length s2.length) 0 0 []).2 = 0 ∨
        (add_loop s1 s2 (max s1.length s2.length) 0 0 []).2 = 1)) ∧
    (InRadix 2 s1 → InRadix 2 s2 →
      (∀ k : Nat,
        ((binary_add_loop s1 s2 k 0 0 []).2 = 0 ∨ (binary_add_loop s1 s2 k 0 0 []).2 = 1) ∧
        (binary_add_loop s1 s2 k 0 0 []).2 + s1.getD k 0 + s2.getD k 0 < 4) ∧
      ((binary_add_loop s1 s2 (max s1.length s2.length) 0 0 []).2 = 0 ∨
        (binary_add_loop s1 s2 (max s1.length s2.length) 0 0 []).2 = 1)) := by
  constructor
  · intro h1 h2
    have key : ∀ k : Nat, 0 ≤ (add_loop s1 s2 k 0 0 []).2 ∧ (add_loop s1 s2 k 0 0 []).2 ≤ 1 := by
      intro k
      rw [add_loop_eq_radix_loop]
      exact radix_loop_carry 10 (Or.inr rfl) s1 s2 h1 h2 k 0 0 [] (le_refl 0) (by omega)
    refine ⟨fun k => ?_, ?_⟩
    · have hk := key k
      have a1 := getD_InRadix (by omega) h1 k
      have a2 := getD_InRadix (by omega) h2 k
      constructor <;> omega
    · have hk := key (max s1.length s2.length)
      omega
  · intro h1 h2
    have key : ∀ k : Nat, 0 ≤ (binary_add_loop s1 s2 k 0 0 []).2 ∧
        (binary_add_loop s1 s2 k 0 0 []).2 ≤ 1 := by
      intro k
      rw [binary_add_loop_eq_radix_loop]
      exact radix_loop_carry 2 (Or.inl rfl) s1 s2 h1 h2 k 0 0 [] (le_refl 0) (by omega)
    refine ⟨fun k => ?_, ?_⟩
    · have hk := key k
      have a1 := getD_InRadix (by omega) h1 k
      have a2 := getD_InRadix (by omega) h2 k
      constructor <;> omega
    · have hk := key (max s1.length s2.length)
      omega

theorem carry_at_most_one_witness :
    (InRadix 10 [9, 9, 9] ∧ InRadix 10 [9, 9] ∧
      (∀ k : Nat, ((add_loop [9, 9, 9] [9, 9] k 0 0 []).2 = 0 ∨
          (add_loop [9, 9, 9] [9, 9] k 0 0 []).2 = 1) ∧
        (add_loop [9, 9, 9] [9, 9] k 0 0 []).2 + [9, 9, 9].getD k 0 + [9, 9].getD k 0 < 20) ∧
      ((add_loop [9, 9, 9] [9, 9] (max [9, 9, 9].length [9, 9].length) 0 0 []).2 = 0 ∨
        (add_loop [9, 9, 9] [9, 9] (max [9, 9, 9].length [9, 9].length) 0 0 []).2 = 1)) ∧
    (InRadix 2 [1, 1, 1] ∧ InRadix 2 [1, 1] ∧
      (∀ k : Nat, ((binary_add_loop [1, 1, 1] [1, 1] k 0 0 []).2 = 0 ∨
          (binary_add_loop [1, 1, 1] [1, 1] k 0 0 []).2 = 1) ∧
        (binary_add_loop [1, 1, 1] [1, 1] k 0 0 []).2 + [1, 1, 1].getD k 0 + [1, 1].getD k 0
          < 4) ∧
      ((binary_add_loop [1, 1, 1] [1, 1] (max [1, 1, 1].length [1, 1].length) 0 0 []).2 = 0 ∨
        (binary_add_loop [1, 1, 1] [1, 1] (max [1, 1, 1].length [1, 1].length) 0 0 []).2 = 1)) :=
  ⟨⟨by decide, by decide, (carry_at_most_one [9, 9, 9] [9, 9]).1 (by decide) (by decide)⟩,
    ⟨by decide, by decide, (carry_at_most_one [1, 1, 1] [1, 1]).2 (by decide) (by decide)⟩⟩

/-- C15: result length of add. For all vectors s1, s2, the loop pushes max(len(s1), len(s2))
elements, and add(s1, s2) has that length when the carry left after the loop is zero and
one more otherwise; it is never shorter than the longer input and never more than one
element longer. -/
theorem add_length (s1 s2 : List Int) :
    (add_loop s1 s2 (max s1.length s2.length) 0 0 []).1.length = max s1.length s2.length ∧
      (add s1 s2).length =
        (if (add_loop s1 s2 (max s1.length s2.length) 0 0 []).2 = 0 then
          max s1.length s2.length else max s1.length s2.length + 1) ∧
      max s1.length s2.length ≤ (add s1 s2).length ∧
      (add s1 s2).length ≤ max s1.length s2.length + 1 := by
  have hl : (add_loop s1 s2 (max s1.length s2.length) 0 0 []).1.length =
      max s1.length s2.length := by
    rw [add_loop_eq_radix_loop, radix_loop_length 10 s1 s2 _ 0 0 [] (by omega)]
    simp
  have ha : (add s1 s2).length =
      (if (add_loop s1 s2 (max s1.length s2.length) 0 0 []).2 = 0 then
        max s1.length s2.length else max s1.length s2.length + 1) := by
    unfold add
    by_cases c : (add_loop s1 s2 (max s1.length s2.length) 0 0 []).2 = 0
    · simp [c, hl]
    · simp [c, hl]
  refine ⟨hl, ha, ?_, ?_⟩ <;> rw [ha] <;> split <;> omega

/-! ## Addition of vectors whose elements are not digits -/

theorem fits32_iff (x : Int) : fits32 x = true ↔ -2147483648 ≤ x ∧ x < 2147483648 := by
  simp [fits32]

/-- On non-negative elements and as long as no addition overflows, the loop followed by
the closing step is the recursive adder, whatever the size of the elements. -/
theorem radix_loop_ripple_of_fits (s1 s2 : List Int) (h1 : ∀ x ∈ s1, 0 ≤ x)
    (h2 : ∀ x ∈ s2, 0 ≤ x) (fuel i : Nat) (t : Int) (res : List Int)
    (hf : max s1.length s2.length ≤ i + fuel) (ht0 : 0 ≤ t)
    (hfit : add_fits s1 s2 fuel i t = true) :
    finish (radix_loop 10 s1 s2 fuel i t res) = res ++ ripple 10 t (s1.drop i) (s2.drop i) := by
  induction fuel generalizing i t res with
  | zero =>
    have e1 : s1.drop i = [] := List.drop_eq_nil_of_le (by omega)
    have e2 : s2.drop i = [] := List.drop_eq_nil_of_le (by omega)
    rw [e1, e2]
    by_cases h : t = 0 <;> simp [radix_loop, finish, ripple, h]
  | succ k ih =>
    by_cases c1 : i < s1.length <;> by_cases c2 : i < s2.length
    · have b1 := h1 _ (List.getElem_mem c1)
      have b2 := h2 _ (List.getElem_mem c2)
      simp only [add_fits, c1, c2, true_or, if_true, getD_of_lt, Bool.and_eq_true,
        fits32_iff] at hfit
      obtain ⟨⟨f1, f2⟩, f3⟩ := hfit
      have w1 : wrap32 (t + s1[i]) = t + s1[i] := wrap32_of_range _ f1.1 f1.2
      have w2 : wrap32 (t + s1[i] + s2[i]) = t + s1[i] + s2[i] := wrap32_of_range _ f2.1 f2.2
      have hs : 0 ≤ t + s1[i] + s2[i] := by omega
      rw [Int.tdiv_eq_ediv hs (by omega)] at f3
      rw [List.drop_eq_getElem_cons c1, List.drop_eq_getElem_cons c2]
      simp only [radix_loop, c1, c2, true_or, if_true, getD_of_lt, w1, w2, ripple,
        Int.tdiv_eq_ediv hs (by omega : (0 : Int) ≤ 10),
        Int.tmod_eq_emod hs (by omega : (0 : Int) ≤ 10)]
      rw [ih (i + 1) _ _ (by omega) (by omega) f3]
      simp
    · have b1 := h1 _ (List.getElem_mem c1)
      simp only [add_fits, c1, c2, true_or, if_true, if_false, getD_of_lt, Bool.and_eq_true,
        fits32_iff] at hfit
      obtain ⟨⟨f1, -⟩, f3⟩ := hfit
      have w1 : wrap32 (t + s1[i]) = t + s1[i] := wrap32_of_range _ f1.1 f1.2
      have hs : 0 ≤ t + s1[i] := by omega
      rw [Int.tdiv_eq_ediv hs (by omega)] at f3
      have e2 : s2.drop i = [] := List.drop_eq_nil_of_le (by omega)
      have e2' : s2.drop (i + 1) = [] := List.drop_eq_nil_of_le (by omega)
      rw [List.drop_eq_getElem_cons c1, e2]
      simp only [radix_loop, c1, c2, true_or, if_true, if_false, getD_of_lt, w1, ripple,
        Int.tdiv_eq_ediv hs (by omega : (0 : Int) ≤ 10),
        Int.tmod_eq_emod hs (by omega : (0 : Int) ≤ 10)]
      rw [ih (i + 1) _ _ (by omega) (by omega) f3, e2']
      simp
    · have b2 := h2 _ (List.getElem_mem c2)
      simp only [add_fits, c1, c2, or_true, if_true, if_false, getD_of_lt, Bool.and_eq_true,
        fits32_iff] at hfit
      obtain ⟨⟨-, f2⟩, f3⟩ := hfit
      have w2 : wrap32 (t + s2[i]) = t + s2[i] := wrap32_of_range _ f2.1 f2.2
      have hs : 0 ≤ t + s2[i] := by omega
      rw [Int.tdiv_eq_ediv hs (by omega)] at f3
      have e1 : s1.drop i = [] := List.drop_eq_nil_of_le (by omega)
      have e1' : s1.drop (i + 1) = [] := List.drop_eq_nil_of_le (by omega)
      rw [List.drop_eq_getElem_cons c2, e1]
      simp only [radix_loop, c1, c2, or_true, if_true, if_false, getD_of_lt, w2, ripple,
        Int.tdiv_eq_ediv hs (by omega : (0 : Int) ≤ 10),
        Int.tmod_eq_emod hs (by omega : (0 : Int) ≤ 10)]
      rw [ih (i + 1) _ _ (by omega) (by omega) f3, e1']
      simp
    · have e1 : s1.drop i = [] := List.drop_eq_nil_of_le (by omega)
      have e2 : s2.drop i = [] := List.drop_eq_nil_of_le (by omega)
      rw [e1, e2]
      by_cases h : t = 0 <;> simp [radix_loop, finish, ripple, h, c1, c2]

/-- C19: add preserves the positional sum even when the digit-range precondition is
violated. For all vectors s1, s2 of non-negative integers such that no addition of the
loop overflows int, the radix-10 positional value of add(s1, s2) is value(s1) + value(s2);
the result may then contain an element of 10 or more, as in add([95], [7]) = [2, 10], and
elements that are not digits are neither detected nor rejected. -/
theorem add_positional_any_digits (s1 s2 : List Int) (h1 : ∀ x ∈ s1, 0 ≤ x)
    (h2 : ∀ x ∈ s2, 0 ≤ x) (hfit : add_fits s1 s2 (max s1.length s2.length) 0 0 = true) :
    positional 10 (add s1 s2) = positional 10 s1 + positional 10 s2 ∧
      add [95] [7] = [2, 10] ∧ add_checked [95] [7] = some [2, 10] := by
  refine ⟨?_, by decide, by decide⟩
  rw [add_eq_finish, radix_loop_ripple_of_fits s1 s2 h1 h2 _ 0 0 [] (by omega) (le_refl 0) hfit,
    positional_eq_horner, positional_eq_horner, positional_eq_horner, List.nil_append,
    List.drop_zero, List.drop_zero, horner_ripple]
  ring

theorem add_positional_any_digits_witness :
    (∀ x ∈ [95, 1234567], 0 ≤ x) ∧ (∀ x ∈ ([7, 40, 2000000000] : List Int), 0 ≤ x) ∧
      add_fits [95, 1234567] [7, 40, 2000000000]
        (max [95, 1234567].length [7, 40, 2000000000].length) 0 0 = true ∧
      (positional 10 (add [95, 1234567] [7, 40, 2000000000]) =
          positional 10 [95, 1234567] + positional 10 [7, 40, 2000000000] ∧
        add [95] [7] = [2, 10] ∧ add_checked [95] [7] = some [2, 10]) :=
  ⟨by decide, by decide, by decide,
    add_positional_any_digits [95, 1234567] [7, 40, 2000000000] (by decide) (by decide)
      (by decide)⟩

/-! ## Inputs that the codec and the driver do not reject -/

/-- C12, as amended: str_to_vec validates nothing and reports no error. For every string
of ASCII characters, the empty string and strings with characters that are not digits
included, it returns a vector of the length of s whose element at index i is the code of
the character of s at index |s| - 1 - i minus the code of the character 0. -/
theorem str_to_vec_unchecked (s : String) (_hs : ∀ c ∈ s.data, c.toNat < 128) :
    (str_to_vec s).length = s.length ∧
      ∀ i, i < s.length → ∃ c, s.data[s.length - 1 - i]? = some c ∧
        (str_to_vec s)[i]? = some ((c.toNat : Int) - 48) := by
  have e : s.length = s.data.length := rfl
  refine ⟨?_, ?_⟩
  · rw [str_to_vec_eq, List.length_map, List.length_reverse, e]
  · intro i hi
    rw [e] at hi
    have hj : s.data.length - 1 - i < s.data.length := by omega
    refine ⟨s.data[s.data.length - 1 - i], ?_, ?_⟩
    · rw [e, List.getElem?_eq_getElem hj]
    · rw [str_to_vec_eq, List.getElem?_map, List.getElem?_reverse hi,
        List.getElem?_eq_getElem hj]
      rfl

theorem str_to_vec_unchecked_witness :
    (∀ c ∈ "7a:".data, c.toNat < 128) ∧
      ((str_to_vec "7a:").length = "7a:".length ∧
        ∀ i, i < "7a:".length → ∃ c, "7a:".data["7a:".length - 1 - i]? = some c ∧
          (str_to_vec "7a:")[i]? = some ((c.toNat : Int) - 48)) :=
  ⟨by decide, str_to_vec_unchecked "7a:" (by decide)⟩

/-- C12 fails as stated: the empty string gives the empty vector, and strings with a
character outside the decimal digits, or outside the binary digits, give a vector. -/
theorem str_to_vec_accepts_malformed :
    str_to_vec "" = [] ∧
      ('a' ∉ decimalDigits ∧ digitValue 'a' = none ∧ str_to_vec "1a" = [49, 1]) ∧
      str_to_vec "-5" = [5, -3] ∧ str_to_vec "102" = [2, 0, 1] := by
  decide

theorem fib_loop_stops (n : Int) (fuel : Nat) (i : Int) (st : FibState)
    (h : ¬ i < wrap32 (n - 1)) : fib_loop n fuel i st = st := by
  cases fuel with
  | zero => rfl
  | succ k => simp only [fib_loop, h, if_false]

/-- For an index of at most 1, the least int apart, the loop of the driver runs no
iteration. -/
theorem fib_state_small (n : Int) (hmin : -2147483647 ≤ n) (h1 : n ≤ 1) :
    ¬ (0 : Int) < wrap32 (n - 1) ∧
      fib_state n = { pre_1 := [1], pre_2 := [0], current := [] } := by
  have hw := wrap32_pred n hmin (by omega)
  have hc : ¬ (0 : Int) < wrap32 (n - 1) := by rw [hw]; omega
  exact ⟨hc, fib_loop_stops n _ 0 _ hc⟩

theorem fib_main_body_small (n : Int) (hmin : -2147483647 ≤ n) (h1 : n ≤ 1) :
    fib_main_body n =
      (if n = 0 then "第0项为: 0\n" else "") ++ (if n = 1 then "第1项为: 1\n" else "") ++
        "第" ++ toString n ++ "项是: " := by
  have hst := (fib_state_small n hmin h1).2
  unfold fib_main_body
  rw [hst]
  apply String.ext
  by_cases c0 : n = 0
  · subst c0
    decide
  · by_cases c1 : n = 1
    · subst c1
      decide
    · simp [c0, c1, fib_output_loop]

/-- C13, as amended: a negative index is not rejected. For every negative n above the
least int the driver raises no error: its loop runs no iteration, the three vectors keep
their initial values, and it writes the label of term n with no digits. -/
theorem fib_driver_negative (n : Int) (hmin : -2147483647 ≤ n) (hneg : n < 0) :
    ¬ (0 : Int) < wrap32 (n - 1) ∧
      fib_state n = { pre_1 := [1], pre_2 := [0], current := [] } ∧
      fib_main_body n = "第" ++ toString n ++ "项是: " := by
  obtain ⟨hc, hst⟩ := fib_state_small n hmin (by omega)
  refine ⟨hc, hst, ?_⟩
  rw [fib_main_body_small n hmin (by omega)]
  have c0 : ¬ n = 0 := by omega
  have c1 : ¬ n = 1 := by omega
  apply String.ext
  simp [c0, c1]

theorem fib_driver_negative_witness :
    (-2147483647 : Int) ≤ -7 ∧ (-7 : Int) < 0 ∧
      (¬ (0 : Int) < wrap32 (-7 - 1) ∧
        fib_state (-7) = { pre_1 := [1], pre_2 := [0], current := [] } ∧
        fib_main_body (-7) = "第" ++ toString (-7 : Int) ++ "项是: ") :=
  ⟨by decide, by decide, fib_driver_negative (-7) (by decide) (by decide)⟩

/-- C13 fails as stated: for n = -3 the driver runs to its end and writes the label of
term -3 with no digits; nothing reports the negative index. -/
theorem fib_driver_accepts_negative :
    (fib_state (-3)).current = [] ∧ fib_main_body (-3) = "第-3项是: " := by
  decide

/-- C18: for every n of at most 1 (n = 0, n = 1 and every negative n), on the condition
that the subtraction n - 1 of the loop test does not overflow int, the loop body never
executes and current is still the empty vector when it is written, so the general line
of term n is written with no digits; for n = 0 and n = 1 this empty line follows the
special-case line that writes 0 or 1. -/
theorem fib_driver_small_index (n : Int) (hfit : fits32 (n - 1) = true) (h1 : n ≤ 1) :
    ¬ (0 : Int) < wrap32 (n - 1) ∧
      (∀ fuel : Nat, fib_loop n fuel 0 { pre_1 := [1], pre_2 := [0], current := [] } =
        { pre_1 := [1], pre_2 := [0], current := [] }) ∧
      (fib_state n).current = [] ∧
      fib_render (fib_state n).current = "" ∧
      fib_main_body n =
        (if n = 0 then "第0项为: 0\n" else "") ++ (if n = 1 then "第1项为: 1\n" else "") ++
          "第" ++ toString n ++ "项是: " ∧
      fib_main_body 0 = "第0项为: 0\n" ++ "第0项是: " ∧
      fib_main_body 1 = "第1项为: 1\n" ++ "第1项是: " := by
  have hmin : -2147483647 ≤ n := by
    have := ((fits32_iff (n - 1)).mp hfit).1
    omega
  obtain ⟨hc, hst⟩ := fib_state_small n hmin h1
  refine ⟨hc, fun fuel => fib_loop_stops n fuel 0 _ hc, by rw [hst], by rw [hst]; rfl,
    fib_main_body_small n hmin h1, by decide, by decide⟩

theorem fib_driver_small_index_witness :
    fits32 (-2 - 1) = true ∧ (-2 : Int) ≤ 1 ∧
      (¬ (0 : Int) < wrap32 (-2 - 1) ∧
        (∀ fuel : Nat, fib_loop (-2) fuel 0 { pre_1 := [1], pre_2 := [0], current := [] } =
          { pre_1 := [1], pre_2 := [0], current := [] }) ∧
        (fib_state (-2)).current = [] ∧
        fib_render (fib_state (-2)).current = "" ∧
        fib_main_body (-2) =
          (if (-2 : Int) = 0 then "第0项为: 0\n" else "") ++
            (if (-2 : Int) = 1 then "第1项为: 1\n" else "") ++
            "第" ++ toString (-2 : Int) ++ "项是: " ∧
        fib_main_body 0 = "第0项为: 0\n" ++ "第0项是: " ∧
        fib_main_body 1 = "第1项为: 1\n" ++ "第1项是: ") :=
  ⟨by decide, by decide, fib_driver_small_index (-2) (by decide) (by decide)⟩

/-! ## The recurrence state stays canonical -/

/-- The loop of the driver keeps the Digit Sequence invariant of pre_1 and pre_2, for
every input n and every number of iterations. -/
theorem fib_loop_canonical (n : Int) (fuel : Nat) (i : Int) (st : FibState)
    (h1 : DigitSeq 10 st.pre_1) (h2 : DigitSeq 10 st.pre_2) :
    DigitSeq 10 (fib_loop n fuel i st).pre_1 ∧ DigitSeq 10 (fib_loop n fuel i st).pre_2 := by
  induction fuel generalizing i st with
  | zero => exact ⟨h1, h2⟩
  | succ k ih =>
    simp only [fib_loop]
    split
    · exact ih _ _ (DigitSeq_add _ _ h1 h2) h1
    · exact ⟨h1, h2⟩

theorem digitChar_ne_zero (d : Nat) (h0 : d ≠ 0) (h1 : d < 10) : Nat.digitChar d ≠ '0' := by
  interval_cases d <;> first | exact absurd rfl h0 | decide

/-- The decimal numeral of a positive number does not begin with the character 0. -/
theorem toString_head (k : Nat) (hk : 0 < k) :
    ∃ c, (toString k).data.head? = some c ∧ c ≠ '0' := by
  have hne : Nat.digits 10 k ≠ [] := Nat.digits_ne_nil_iff_ne_zero.mpr (by omega)
  refine ⟨Nat.digitChar ((Nat.digits 10 k).getLast hne), ?_, ?_⟩
  · rw [toString_eq_digits k hk]
    simp only [List.head?_map, List.head?_reverse, List.getLast?_eq_getLast _ hne, Option.map_some']
  · exact digitChar_ne_zero _ (Nat.getLast_digit_ne_zero 10 (by omega))
      (Nat.digits_lt_base (by omega) (List.getLast_mem hne))

/-- C16: the recurrence state stays canonical, so the driver prints numerals without
leading zeros. At the start and end of every iteration of the Fibonacci loop (the loop
stopped after k iterations, for every k), pre_1 and pre_2 are non-empty, have every digit
in [0,10), and have a non-zero last element unless equal to [0]; hence for every n of at
least 2 the digit string written for current has a first character and it is not 0. -/
theorem fib_state_canonical (n : Int) :
    (∀ k : Nat,
      DigitSeq 10 (fib_loop n k 0 { pre_1 := [1], pre_2 := [0], current := [] }).pre_1 ∧
        DigitSeq 10 (fib_loop n k 0 { pre_1 := [1], pre_2 := [0], current := [] }).pre_2) ∧
    (2 ≤ n → n ≤ 2147483647 →
      ∃ c, (fib_render (fib_state n).current).data.head? = some c ∧ c ≠ '0') := by
  refine ⟨fun k => fib_loop_canonical n k 0 _ (by decide) (by decide), ?_⟩
  intro h2 hmax
  have hpos := Fib_pos n.toNat (by omega)
  obtain ⟨c, hc, hc0⟩ := toString_head (Fib n.toNat) hpos
  refine ⟨c, ?_, hc0⟩
  unfold fib_render
  rw [fib_state_current n h2 hmax, fib_output_loop_digits _ hpos ""]
  simp only [String.data_append, List.head?_append, hc]
  rfl

theorem fib_state_canonical_witness :
    (2 : Int) ≤ 12 ∧ (12 : Int) ≤ 2147483647 ∧
      ∃ c, (fib_render (fib_state 12).current).data.head? = some c ∧ c ≠ '0' :=
  ⟨by decide, by decide, (fib_state_canonical 12).2 (by decide) (by decide)⟩

/-! ## The maximum subarray sum -/

theorem segSum_self (nums : List Int) (p : Nat) (hp : p < nums.length) :
    segSum nums p p = nums[p] := by
  unfold segSum
  have e : p + 1 - p = 1 := by omega
  rw [e, List.drop_eq_getElem_cons hp, List.take_succ_cons, List.take_zero, List.sum_cons,
    List.sum_nil, add_zero]

theorem segSum_succ (nums : List Int) (i p : Nat) (hi : i ≤ p) (hp : p + 1 < nums.length) :
    segSum nums i (p + 1) = segSum nums i p + nums[p + 1] := by
  unfold segSum
  have e : p + 1 + 1 - i = (p + 1 - i) + 1 := by omega
  have e2 : i + (p + 1 - i) = p + 1 := by omega
  rw [e, List.take_succ, List.getElem?_drop, e2, List.getElem?_eq_getElem hp]
  simp

/-- One iteration of the loop of func, computed with exact integers, keeps the invariant. -/
theorem KadaneInv_step (nums : List Int) (p : Nat) (m c : Int) (hp : p + 1 < nums.length)
    (h : KadaneInv nums p m c) :
    KadaneInv nums (p + 1) (max m (if c < 0 then nums[p + 1] else c + nums[p + 1]))
      (if c < 0 then nums[p + 1] else c + nums[p + 1]) := by
  obtain ⟨⟨i0, hi0, hc⟩, hcu, ⟨a, b, hab, hb, hm⟩, hmu⟩ := h
  have hself := segSum_self nums (p + 1) hp
  have hup : ∀ i, i ≤ p + 1 →
      segSum nums i (p + 1) ≤ (if c < 0 then nums[p + 1] else c + nums[p + 1]) := by
    intro i hi
    by_cases e : i = p + 1
    · subst e
      rw [hself]
      split <;> omega
    · have hs := segSum_succ nums i p (by omega) hp
      have hle := hcu i (by omega)
      rw [hs]
      split <;> omega
  refine ⟨?_, hup, ?_, ?_⟩
  · by_cases hneg : c < 0
    · exact ⟨p + 1, le_refl _, by rw [if_pos hneg, hself]⟩
    · exact ⟨i0, by omega, by rw [if_neg hneg, segSum_succ nums i0 p hi0 hp, hc]⟩
  · rcases le_total m (if c < 0 then nums[p + 1] else c + nums[p + 1]) with hle | hle
    · rw [max_eq_right hle]
      by_cases hneg : c < 0
      · exact ⟨p + 1, p + 1, le_refl _, le_refl _, by rw [if_pos hneg, hself]⟩
      · exact ⟨i0, p + 1, by omega, le_refl _,
          by rw [if_neg hneg, segSum_succ nums i0 p hi0 hp, hc]⟩
    · rw [max_eq_left hle]
      exact ⟨a, b, hab, by omega, hm⟩
  · intro i j hij hj
    by_cases e : j = p + 1
    · subst e
      exact le_trans (hup i hij) (le_max_right _ _)
    · exact le_trans (hmu i j hij (by omega)) (le_max_left _ _)

/-- From the invariant after the element of index p, and with no overflow on the rest,
the loop of func returns the greatest sum of a contiguous subarray. -/
theorem func_loop_spec (nums rest : List Int) (p : Nat) (m c : Int)
    (hrest : nums.drop (p + 1) = rest) (hp : p < nums.length) (h : KadaneInv nums p m c)
    (hfit : func_fits rest c = true) :
    (∃ i j, i ≤ j ∧ j < nums.length ∧ func_loop rest m c = segSum nums i j) ∧
      (∀ i j, i ≤ j → j < nums.length → segSum nums i j ≤ func_loop rest m c) := by
  induction rest generalizing p m c with
  | nil =>
    have hlen : nums.length ≤ p + 1 := by
      have := congrArg List.length hrest
      simp at this
      omega
    obtain ⟨-, -, ⟨a, b, hab, hb, hm⟩, hmu⟩ := h
    exact ⟨⟨a, b, hab, by omega, hm⟩, fun i j hij hj => hmu i j hij (by omega)⟩
  | cons x rest ih =>
    have hlt : p + 1 < nums.length := by
      by_contra hcon
      rw [List.drop_eq_nil_of_le (by omega)] at hrest
      exact List.noConfusion hrest
    rw [List.drop_eq_getElem_cons hlt] at hrest
    have hx : nums[p + 1] = x := (List.cons.inj hrest).1
    have hr : nums.drop (p + 1 + 1) = rest := (List.cons.inj hrest).2
    have hstep := KadaneInv_step nums p m c hlt h
    rw [hx] at hstep
    simp only [func_fits, Bool.and_eq_true] at hfit
    obtain ⟨f1, f2⟩ := hfit
    have hw : (if c < 0 then x else wrap32 (c + x)) = (if c < 0 then x else c + x) := by
      by_cases hneg : c < 0
      · simp [hneg]
      · rw [if_neg hneg] at f1
        rw [if_neg hneg, if_neg hneg, wrap32_of_range _ ((fits32_iff _).mp f1).1
          ((fits32_iff _).mp f1).2]
    simp only [func_loop, hw]
    exact ih (p + 1) _ _ hr hlt hstep f2

theorem sum_le_zero_of_neg (l : List Int) (h : ∀ x ∈ l, x < 0) : l.sum ≤ 0 := by
  induction l with
  | nil => simp
  | cons a l ih =>
    have ha := h a (List.mem_cons_self a l)
    have hl := ih (fun x hx => h x (List.mem_cons_of_mem a hx))
    simp only [List.sum_cons]
    omega

/-- In a vector of negative elements no subarray sum exceeds its first element. -/
theorem segSum_le_first (nums : List Int) (h : ∀ x ∈ nums, x < 0) (i j : Nat) (hij : i ≤ j)
    (hj : j < nums.length) : segSum nums i j ≤ nums[i] := by
  unfold segSum
  have e : j + 1 - i = (j - i) + 1 := by omega
  rw [e, List.drop_eq_getElem_cons (by omega : i < nums.length), List.take_succ_cons,
    List.sum_cons]
  have := sum_le_zero_of_neg ((nums.drop (i + 1)).take (j - i))
    (fun x hx => h x (List.mem_of_mem_drop (List.mem_of_mem_take hx)))
  omega

/-- C17: func is the maximum-subarray sum of Kadane. For every non-empty vector nums of
integers, with no intermediate sum overflowing int, func(nums) is the sum of a non-empty
contiguous subarray nums[i..j] and no such subarray has a greater sum (so for an input of
negative elements it is the largest element); for the empty vector func returns 0. -/
theorem func_max_subarray (nums : List Int) (hne : nums ≠ [])
    (hfit : func_fits nums 0 = true) :
    (∃ i j, i ≤ j ∧ j < nums.length ∧ func nums = segSum nums i j) ∧
      (∀ i j, i ≤ j → j < nums.length → segSum nums i j ≤ func nums) ∧
      ((∀ x ∈ nums, x < 0) → func nums ∈ nums ∧ ∀ x ∈ nums, x ≤ func nums) ∧
      func [] = 0 := by
  have main : (∃ i j, i ≤ j ∧ j < nums.length ∧ func nums = segSum nums i j) ∧
      (∀ i j, i ≤ j → j < nums.length → segSum nums i j ≤ func nums) := by
    cases nums with
    | nil => exact absurd rfl hne
    | cons x0 rest =>
      simp only [func_fits, Bool.and_eq_true] at hfit
      obtain ⟨f1, f2⟩ := hfit
      have hn : ¬ (0 : Int) < 0 := by omega
      rw [if_neg hn] at f1 f2
      have hw : wrap32 (0 + x0) = 0 + x0 :=
        wrap32_of_range _ ((fits32_iff _).mp f1).1 ((fits32_iff _).mp f1).2
      have hpos : 0 < (x0 :: rest).length := by simp
      have hself := segSum_self (x0 :: rest) 0 hpos
      have hself' : segSum (x0 :: rest) 0 0 = x0 := by rw [hself]; rfl
      have hinv : KadaneInv (x0 :: rest) 0 (max x0 (0 + x0)) (0 + x0) := by
        rw [zero_add, max_self]
        refine ⟨⟨0, le_refl _, hself'.symm⟩, ?_, ⟨0, 0, le_refl _, le_refl _, hself'.symm⟩, ?_⟩
        · intro i hi
          have : i = 0 := by omega
          subst this
          exact le_of_eq hself'
        · intro i j hij hj
          have e1 : j = 0 := by omega
          have e2 : i = 0 := by omega
          subst e1 e2
          exact le_of_eq hself'
      have hw0 : wrap32 x0 = x0 := by rw [zero_add] at hw; exact hw
      have hf : func (x0 :: rest) = func_loop rest (max x0 (0 + x0)) (0 + x0) := by
        simp [func, func_loop, hw0]
      rw [hf]
      exact func_loop_spec (x0 :: rest) rest 0 _ _ rfl hpos hinv f2
  obtain ⟨⟨i, j, hij, hj, hval⟩, hub⟩ := main
  refine ⟨⟨i, j, hij, hj, hval⟩, hub, ?_, by decide⟩
  intro hneg
  have hall : ∀ x ∈ nums, x ≤ func nums := by
    intro x hx
    obtain ⟨t, ht, rfl⟩ := List.getElem_of_mem hx
    rw [← segSum_self nums t ht]
    exact hub t t (le_refl _) ht
  refine ⟨?_, hall⟩
  have hi : i < nums.length := by omega
  have h1 := segSum_le_first nums hneg i j hij hj
  have h2 := hall nums[i] (List.getElem_mem hi)
  have e : func nums = nums[i] := by omega
  rw [e]
  exact List.getElem_mem hi

theorem func_max_subarray_witness :
    ([-2, 1, -3, 4, -1, 2, 1, -5, 4] : List Int) ≠ [] ∧
      func_fits [-2, 1, -3, 4, -1, 2, 1, -5, 4] 0 = true ∧
      ((∃ i j, i ≤ j ∧ j < [-2, 1, -3, 4, -1, 2, 1, -5, 4].length ∧
          func [-2, 1, -3, 4, -1, 2, 1, -5, 4] = segSum [-2, 1, -3, 4, -1, 2, 1, -5, 4] i j) ∧
        (∀ i j, i ≤ j → j < [-2, 1, -3, 4, -1, 2, 1, -5, 4].length →
          segSum [-2, 1, -3, 4, -1, 2, 1, -5, 4] i j ≤ func [-2, 1, -3, 4, -1, 2, 1, -5, 4]) ∧
        ((∀ x ∈ ([-2, 1, -3, 4, -1, 2, 1, -5, 4] : List Int), x < 0) →
          func [-2, 1, -3, 4, -1, 2, 1, -5, 4] ∈ ([-2, 1, -3, 4, -1, 2, 1, -5, 4] : List Int) ∧
            ∀ x ∈ ([-2, 1, -3, 4, -1, 2, 1, -5, 4] : List Int),
              x ≤ func [-2, 1, -3, 4, -1, 2, 1, -5, 4]) ∧
        func [] = 0) :=
  ⟨by decide, by decide, func_max_subarray [-2, 1, -3, 4, -1, 2, 1, -5, 4] (by decide) (by decide)⟩

end DigitVector
